import Mathlib

/-!
Verification development for the overrun workspace task orchestrator.

We shallowly embed the relevant parts of the source
(config.py, registry.py, runtime.py, target.py, types.py, and the
semantics of Python's graphlib.TopologicalSorter on which the registry
and runtime rely) as executable Lean definitions, and settle the spec
claims as theorems about those definitions.

Conventions:
  - Python strings are Lean String.
  - A pathlib.Path is modelled either as a component list (List String),
    when the code walks parents or takes the basename, or as a plain
    String when the path is only compared or concatenated.
  - Python dicts keyed by strings are association lists with insertion
    order preserved; writing to an existing key replaces the value in
    place, writing a fresh key appends (the semantics of a Python dict
    comprehension).
  - Fallible code returns Except; a raised exception that escapes a
    subsystem boundary is an explicit error value (PyErr below).
-/

namespace Overrun

/-- Python exceptions that escape the modelled code paths. -/
inductive PyErr where
  | keyError (k : String)
  | notImplementedError
  | fuelExhausted
deriving DecidableEq

/-- A Python value as it appears in a component argument table
(the TOML-derived payload).  Only the shapes the claims touch. -/
inductive PyVal where
  | str (s : String)
  | int (n : Int)
  | bool (b : Bool)
  | list (l : List PyVal)

mutual

def PyVal.decEq : (a b : PyVal) → Decidable (a = b)
  | .str a, .str b =>
      if h : a = b then .isTrue (by rw [h]) else .isFalse (by simp [h])
  | .str _, .int _ => .isFalse (by simp)
  | .str _, .bool _ => .isFalse (by simp)
  | .str _, .list _ => .isFalse (by simp)
  | .int _, .str _ => .isFalse (by simp)
  | .int a, .int b =>
      if h : a = b then .isTrue (by rw [h]) else .isFalse (by simp [h])
  | .int _, .bool _ => .isFalse (by simp)
  | .int _, .list _ => .isFalse (by simp)
  | .bool _, .str _ => .isFalse (by simp)
  | .bool _, .int _ => .isFalse (by simp)
  | .bool a, .bool b =>
      if h : a = b then .isTrue (by rw [h]) else .isFalse (by simp [h])
  | .bool _, .list _ => .isFalse (by simp)
  | .list _, .str _ => .isFalse (by simp)
  | .list _, .int _ => .isFalse (by simp)
  | .list _, .bool _ => .isFalse (by simp)
  | .list a, .list b =>
      match PyVal.decEqList a b with
      | .isTrue h => .isTrue (by rw [h])
      | .isFalse h => .isFalse (by simp [h])

def PyVal.decEqList : (a b : List PyVal) → Decidable (a = b)
  | [], [] => .isTrue rfl
  | [], _ :: _ => .isFalse (by simp)
  | _ :: _, [] => .isFalse (by simp)
  | x :: xs, y :: ys =>
      match PyVal.decEq x y with
      | .isFalse h => .isFalse (by simp [h])
      | .isTrue h1 =>
          match PyVal.decEqList xs ys with
          | .isTrue h2 => .isTrue (by rw [h1, h2])
          | .isFalse h2 => .isFalse (by simp [h2])

end

instance : DecidableEq PyVal := PyVal.decEq

/-- Association-list insert with Python-dict semantics: an existing key
keeps its position and gets the new value, a fresh key is appended. -/
def dictInsert {β : Type} (m : List (String × β)) (k : String) (v : β) :
    List (String × β) :=
  match m with
  | [] => [(k, v)]
  | (k', v') :: rest =>
      if k' = k then (k', v) :: rest else (k', v') :: dictInsert rest k v

/-- Association-list lookup, mirroring Python dict access. -/
def dictGet {β : Type} (m : List (String × β)) (k : String) : Option β :=
  match m with
  | [] => none
  | (k', v') :: rest => if k' = k then some v' else dictGet rest k

/-- Python slice s[0:stop] where stop may be negative
(a negative stop counts from the end; note that -0 is 0, so a stop of
zero yields the empty string, which is exactly the .toml corner case). -/
def pySliceUpto (s : String) (stop : Int) : String :=
  let n : Int := s.length
  let stop' : Int := if stop < 0 then n + stop else stop
  let stop'' : Nat := stop'.toNat
  ⟨s.toList.take stop''⟩

/-- The suffix rule of pathlib.PurePath.suffix: the substring from the
last dot, provided that dot is neither the first nor the last character
of the basename; otherwise the empty string.  In particular a dotfile
like ".toml" has an empty suffix. -/
def pathSuffix (name : String) : String :=
  let cs := name.toList
  match (cs.reverse.findIdx? (fun c => c = '.')) with
  | none => ""
  | some jrev =>
      let i := cs.length - 1 - jrev
      if 0 < i ∧ i < cs.length - 1 then ⟨cs.drop i⟩ else ""

/-- Python str.endswith for the target-file filter. -/
def pyEndsWith (s post : String) : Bool :=
  s.toList.reverse.take post.length = post.toList.reverse

/-- os.path / pathlib expanduser: a leading tilde component is replaced
by the home directory; other strings are untouched. -/
def expandUser (home s : String) : String :=
  if s = "~" then home
  else if s.toList.take 2 = ['~', '/'] then home ++ ⟨s.toList.drop 1⟩
  else s

end Overrun

/-!  types.py: ComponentDef and TargetDef.  A component class
(type[Component]) is modelled by its registered name together with the
lifecycle capabilities it structurally declares (which of start / run /
stop / reset it defines); this is exactly what isinstance against the
runtime-checkable protocols observes. -/

namespace Overrun

/-- Model of a registered component class: its name and the lifecycle
capabilities its instances structurally expose. -/
structure CompClass where
  clsName : String
  hasStart : Bool
  hasRun : Bool
  hasStop : Bool
  hasReset : Bool
deriving DecidableEq

/-- types.py ComponentDef: component type name, class, argument table. -/
structure ComponentDef where
  name : String
  cls : CompClass
  args : List (String × PyVal)
deriving DecidableEq

/-- types.py TargetDef: name, defining file path (string form),
dependencies (a Python set of TargetDef, carried as a list), and the
ordered component definitions. -/
inductive TargetDef where
  | mk (name : String) (path : String) (dependencies : List TargetDef)
      (component_defs : List ComponentDef)

mutual

def TargetDef.decEq : (a b : TargetDef) → Decidable (a = b)
  | .mk n1 p1 d1 c1, .mk n2 p2 d2 c2 =>
      if hn : n1 = n2 then
        if hp : p1 = p2 then
          if hc : c1 = c2 then
            match TargetDef.decEqList d1 d2 with
            | .isTrue hd => .isTrue (by rw [hn, hp, hc, hd])
            | .isFalse hd => .isFalse (by simp [hd])
          else .isFalse (by simp [hc])
        else .isFalse (by simp [hp])
      else .isFalse (by simp [hn])

def TargetDef.decEqList : (a b : List TargetDef) → Decidable (a = b)
  | [], [] => .isTrue rfl
  | [], _ :: _ => .isFalse (by simp)
  | _ :: _, [] => .isFalse (by simp)
  | x :: xs, y :: ys =>
      match TargetDef.decEq x y with
      | .isFalse h => .isFalse (by simp [h])
      | .isTrue h1 =>
          match TargetDef.decEqList xs ys with
          | .isTrue h2 => .isTrue (by rw [h1, h2])
          | .isFalse h2 => .isFalse (by simp [h2])

end

instance : DecidableEq TargetDef := TargetDef.decEq

def TargetDef.name : TargetDef → String
  | .mk n _ _ _ => n

def TargetDef.path : TargetDef → String
  | .mk _ p _ _ => p

def TargetDef.dependencies : TargetDef → List TargetDef
  | .mk _ _ d _ => d

def TargetDef.component_defs : TargetDef → List ComponentDef
  | .mk _ _ _ c => c

/-- The dataclass-generated __eq__ of TargetDef: all four fields are
compared, the dependencies field with Python set semantics (mutual
membership under this same equality). -/
def TargetDef.pyEq : TargetDef → TargetDef → Bool
  | .mk n1 p1 d1 c1, .mk n2 p2 d2 c2 =>
      n1 = n2 && p1 = p2 && c1 = c2 &&
      (d1.attach.all fun x =>
        d2.attach.any fun y => TargetDef.pyEq x.val y.val) &&
      (d2.attach.all fun y =>
        d1.attach.any fun x => TargetDef.pyEq x.val y.val)
termination_by t1 t2 => sizeOf t1 + sizeOf t2
decreasing_by
  all_goals
    simp only [TargetDef.mk.sizeOf_spec]
    have hx := List.sizeOf_lt_of_mem x.property
    have hy := List.sizeOf_lt_of_mem y.property
    omega

/-- The explicit __hash__ of TargetDef hashes the f-string
concatenation of name and path; the hash is therefore a function of
this key string alone. -/
def TargetDef.pyHashKey (t : TargetDef) : String :=
  t.name ++ t.path

end Overrun

/-!  target.py: the capability partition of a Target and the stop
method.  A component instance is modelled by its class capabilities
plus, for stop, its outcome (a raised exception or success). -/

namespace Overrun

/-- A component instance as the Target lifecycle methods observe it:
its type name, its capability set, and the outcome its stop coroutine
produces when invoked (ok, or a raised exception message). -/
structure CompInst where
  cname : String
  cls : CompClass
  stopOutcome : Except String Unit

/-- Target.__post_init__: the stopable sublist, in declared order. -/
def stopablesOf (components : List CompInst) : List CompInst :=
  components.filter (fun c => c.cls.hasStop)

/-- Target.stop: iterate the stopable components in reverse declared
order, awaiting each stop; an exception propagates immediately (there
is no handler around the loop), so later iterations are skipped.
Returns the names of the components whose stop was invoked, in
invocation order, together with the propagated outcome. -/
def targetStopRun : List CompInst → (List String × Except String Unit)
  | [] => ([], .ok ())
  | c :: rest =>
      match c.stopOutcome with
      | .error e => ([c.cname], .error e)
      | .ok () =>
          let (inv, res) := targetStopRun rest
          (c.cname :: inv, res)

/-- Target.stop applied to a full component list: reverse the stopable
partition and run the loop. -/
def targetStop (components : List CompInst) :
    List String × Except String Unit :=
  targetStopRun (stopablesOf components).reverse

end Overrun

/-!  config.py: configuration file resolution (Config.attempt_init
together with _config_file_search) and current-working-project
discovery (_cwp, _recursive_find_project, _has_project_indicator). -/

namespace Overrun

/-- ConfigFailed.Cause from config.py. -/
inductive ConfigCause where
  | envPathNotFound
  | explicitPathNotFound
  | invalidToml
  | invalidConfig
  | notInProject
  | ioError
deriving DecidableEq

/-- The config_file argument of Config.attempt_init: a filesystem
path, an in-memory stream, or nothing. -/
inductive ConfigFileArg where
  | path (p : String)
  | stream
  | noArg
deriving DecidableEq

/-- What attempt_init ends up reading its configuration values from. -/
inductive FileChoice where
  | file (p : String)
  | fromStream
  | noFile
deriving DecidableEq

/-- _config_file_search, instrumented: alongside the result we record
every path whose existence the function checks, in order.  envVar is
os.environ.get("OVERRUN_CONFIG") (a set-but-empty variable is falsy in
Python and is treated as unset), fsx is path existence, home drives
expanduser. -/
def configFileSearch (fsx : String → Bool) (home : String)
    (envVar : Option String) (explicitPath : Option String) :
    (Except ConfigCause (Option String)) × List String :=
  match envVar with
  | some env =>
      if env ≠ "" then
        let p := expandUser home env
        if fsx p then (.ok (some env), [p])
        else (.error .envPathNotFound, [p])
      else
        configFileSearchRest fsx home explicitPath
  | none => configFileSearchRest fsx home explicitPath
where
  /-- The part of _config_file_search after the environment check:
  the explicit path, then the default location. -/
  configFileSearchRest (fsx : String → Bool) (home : String)
      (explicitPath : Option String) :
      (Except ConfigCause (Option String)) × List String :=
    match explicitPath with
    | some ep =>
        let p := expandUser home ep
        if fsx p then (.ok (some ep), [p])
        else (.error .explicitPathNotFound, [p])
    | none =>
        let d := expandUser home "~/.config/overrun/config.toml"
        if fsx d then (.ok (some d), [d]) else (.ok none, [d])

/-- The file-resolution portion of Config.attempt_init: the match on
config_file.  Only the Path arm consults _config_file_search; the None
arm reads nothing, and a stream is parsed directly.  The second
component again records every existence check performed. -/
def attemptInitFileChoice (fsx : String → Bool) (home : String)
    (envVar : Option String) (arg : ConfigFileArg) :
    (Except ConfigCause FileChoice) × List String :=
  match arg with
  | .path p =>
      match configFileSearch fsx home envVar (some p) with
      | (.error c, q) => (.error c, q)
      | (.ok none, q) => (.ok .noFile, q)
      | (.ok (some chosen), q) => (.ok (.file chosen), q)
  | .noArg => (.ok .noFile, [])
  | .stream => (.ok .fromStream, [])

/-- A directory as a component list from the filesystem root; the root
itself is the empty list and the parent drops the last component. -/
abbrev Dir := List String

/-- The patterns.projects option: each indicator is a path fragment. -/
structure PatternOpts where
  projects : List (List String)
deriving DecidableEq

/-- _has_project_indicator: some indicator exists as a child path. -/
def hasProjectIndicator (fsd : Dir → Bool) (opts : PatternOpts)
    (d : Dir) : Bool :=
  opts.projects.any (fun ind => fsd (d ++ ind))

/-- _recursive_find_project: walk from the starting directory towards
the root, returning the first directory carrying an indicator; the
root itself is checked after the loop. -/
def recursiveFindProject (fsd : Dir → Bool) (opts : PatternOpts) :
    Dir → Option Dir
  | [] => if hasProjectIndicator fsd opts [] then some [] else none
  | d :: ds =>
      if hasProjectIndicator fsd opts (d :: ds) then some (d :: ds)
      else recursiveFindProject fsd opts (d :: ds).dropLast
termination_by d => d.length
decreasing_by
  simp [List.length_dropLast]

/-- _cwp: wrap the walk's failure as ConfigFailed(NotInProject). -/
def cwpDiscover (fsd : Dir → Bool) (opts : PatternOpts) (pwd : Dir) :
    Except ConfigCause Dir :=
  match recursiveFindProject fsd opts pwd with
  | some d => .ok d
  | none => .error .notInProject

/-- The chain pwd, parent pwd, ..., root — the directories the walk
visits, nearest first.  (Stated from the spec's walk description, used
to phrase the discovery theorem.) -/
def ancestorChain : Dir → List Dir
  | [] => [[]]
  | d :: ds => (d :: ds) :: ancestorChain (d :: ds).dropLast
termination_by d => d.length
decreasing_by
  simp [List.length_dropLast]

end Overrun

/-!  Python graphlib.TopologicalSorter, which registry.py and
runtime.py use as their graph engine.  The node-info dict is modelled
by an insertion-ordered key list plus functions for the predecessor
counter and the successor list; the sentinel counter values are those
of the library (-1 once passed out by get_ready, -2 once done). -/

namespace Overrun.Graphlib

variable {α : Type} [DecidableEq α]

/-- The TopologicalSorter state. -/
structure TS (α : Type) where
  order : List α
  npred : α → Int
  succs : α → List α
  ready : List α
  npassedout : Nat
  nfinished : Nat

/-- A fresh sorter with no nodes. -/
def TS.empty : TS α := ⟨[], fun _ => 0, fun _ => [], [], 0, 0⟩

/-- _get_nodeinfo: create the node entry on first sight. -/
def TS.register (s : TS α) (n : α) : TS α :=
  if n ∈ s.order then s else { s with order := s.order ++ [n] }

/-- add(node, *predecessors): bump the node's predecessor counter by
the number of predecessors given and append the node to each
predecessor's successor list. -/
def TS.add (s : TS α) (node : α) (preds : List α) : TS α :=
  let s1 := s.register node
  let s2 : TS α :=
    { s1 with npred := fun x =>
        if x = node then s1.npred node + preds.length else s1.npred x }
  preds.foldl (fun acc p =>
    let acc1 := acc.register p
    { acc1 with succs := fun x =>
        if x = p then acc1.succs p ++ [node] else acc1.succs x }) s2

/-- The ready-queue initialisation done by prepare(): every node whose
predecessor counter is zero, in node-insertion order. -/
def TS.prepareReady (s : TS α) : TS α :=
  { s with ready := s.order.filter (fun n => s.npred n = 0) }

/-- get_ready(): hand out the ready queue, mark each handed-out node
with the passed-out sentinel and count it. -/
def TS.getReady (s : TS α) : List α × TS α :=
  let result := s.ready
  (result,
   { s with
     npred := fun x => if x ∈ result then -1 else s.npred x,
     ready := [],
     npassedout := s.npassedout + result.length })

/-- done(node): mark the node done, decrement every successor's
counter, and queue any successor whose counter reaches zero. -/
def TS.doneOne (s : TS α) (node : α) : TS α :=
  let s1 : TS α :=
    { s with npred := fun x => if x = node then -2 else s.npred x }
  let s2 := (s.succs node).foldl (fun acc u =>
    let newv := acc.npred u - 1
    { acc with
      npred := fun x => if x = u then newv else acc.npred x,
      ready := if newv = 0 then acc.ready ++ [u] else acc.ready }) s1
  { s2 with nfinished := s2.nfinished + 1 }

/-- is_active(). -/
def TS.isActive (s : TS α) : Bool :=
  s.nfinished < s.npassedout || !s.ready.isEmpty

/-- The top-of-stack segment down to (and including) the first
occurrence of an element; used to cut the cycle out of the DFS stack
exactly as _find_cycle slices its stack list. -/
def takeThrough (s : α) : List α → List α
  | [] => []
  | x :: xs => if x = s then [x] else x :: takeThrough s xs

/-- The iterative DFS of _find_cycle, written with an explicit stack
of (node, remaining successors) frames, the head being the top.  seen
is the shared visited set; fin collects finished (fully explored)
nodes, most recently finished first — graphlib does not record fin,
but it is determined by the traversal and the proofs read it off.
Returns either the detected cycle (first element repeated at the end,
exactly the slice CycleError reports) or the final seen and fin
lists.  The proof argument hstack records that every pending successor
is a known node; it is what bounds the traversal. -/
def walkDFS (succs : α → List α) (univ : List α)
    (hsucc : ∀ x, ∀ y ∈ succs x, y ∈ univ) :
    (stack : List (α × List α)) → (seen : List α) → (fin : List α) →
    (hstack : ∀ p ∈ stack, ∀ y ∈ p.2, y ∈ univ) →
    Sum (List α) (List α × List α)
  | [], seen, fin, _ => .inr (seen, fin)
  | (n, []) :: rest, seen, fin, hstack =>
      walkDFS succs univ hsucc rest seen (n :: fin)
        (fun p hp => hstack p (by simp [hp]))
  | (n, s :: srest) :: rest, seen, fin, hstack =>
      if s ∈ ((n, srest) :: rest).map Prod.fst then
        .inl ((takeThrough s (((n, srest) :: rest).map Prod.fst)).reverse
          ++ [s])
      else if hmem : s ∈ seen then
        walkDFS succs univ hsucc ((n, srest) :: rest) seen fin
          (by
            intro p hp y hy
            rcases List.mem_cons.mp hp with h | h
            · refine hstack (n, s :: srest) (by simp) y ?_
              rw [h] at hy
              simp only at hy
              simp [hy]
            · exact hstack p (by simp [h]) y hy)
      else
        walkDFS succs univ hsucc ((s, succs s) :: (n, srest) :: rest)
          (s :: seen) fin
          (by
            intro p hp y hy
            rcases List.mem_cons.mp hp with h | h
            · rw [h] at hy
              simp only at hy
              exact hsucc s y hy
            · rcases List.mem_cons.mp h with h2 | h2
              · exact hstack (n, s :: srest) (by simp)
                  y (by rw [h2] at hy; simp at hy; simp [hy])
              · exact hstack p (by simp [h2]) y hy)
termination_by stack seen _ _ =>
  ((univ.toFinset \ seen.toFinset).card,
   (stack.map fun f => f.2.length).sum + stack.length)
decreasing_by
  · apply Prod.Lex.right
    simp only [List.map_cons, List.sum_cons, List.length_cons]
    omega
  · apply Prod.Lex.right
    simp only [List.map_cons, List.sum_cons, List.length_cons]
    omega
  · apply Prod.Lex.left
    simp only [List.toFinset_cons]
    have hsmem : s ∈ univ :=
      hstack (n, s :: srest) (by simp) s (by simp)
    have hsub2 : univ.toFinset \ insert s seen.toFinset ⊆
        univ.toFinset \ seen.toFinset :=
      Finset.sdiff_subset_sdiff (Finset.Subset.refl _)
        (Finset.subset_insert _ _)
    have hsmem2 : s ∈ univ.toFinset \ seen.toFinset :=
      Finset.mem_sdiff.mpr ⟨List.mem_toFinset.mpr hsmem,
        fun hc => hmem (List.mem_toFinset.mp hc)⟩
    have hsnot : s ∉ univ.toFinset \ insert s seen.toFinset := by simp
    exact Finset.card_lt_card
      ((Finset.ssubset_iff_of_subset hsub2).mpr ⟨s, hsmem2, hsnot⟩)

/-- The outer loop of _find_cycle: start a DFS at every node not yet
seen, in node-insertion order; thread seen and fin through. -/
def findCycleFrom (succs : α → List α) (univ : List α)
    (hsucc : ∀ x, ∀ y ∈ succs x, y ∈ univ) :
    (nodes : List α) → (seen : List α) → (fin : List α) →
    Option (List α) × List α
  | [], seen, fin => (none, fin)
  | n :: rest, seen, fin =>
      if n ∈ seen then findCycleFrom succs univ hsucc rest seen fin
      else
        match walkDFS succs univ hsucc [(n, succs n)] (n :: seen) fin
          (by
            intro p hp y hy
            have hp2 : p = (n, succs n) := by simpa using hp
            rw [hp2] at hy
            exact hsucc n y hy) with
        | .inl c => (some c, fin)
        | .inr (seen2, fin2) =>
            findCycleFrom succs univ hsucc rest seen2 fin2

/-- _find_cycle on a sorter state.  graphlib successor lists only ever
mention registered nodes, an invariant of add that is proved below for
every state the embedding builds; the filter makes the traversal
well-defined without a proof argument and is the identity on such
states.  The fin component is the finishing order the proofs use. -/
def TS.findCycle (s : TS α) : Option (List α) × List α :=
  findCycleFrom (fun x => (s.succs x).filter (fun y => y ∈ s.order))
    s.order
    (by
      intro x y hy
      have h := List.mem_filter.mp hy
      exact of_decide_eq_true h.2)
    s.order [] []

end Overrun.Graphlib

/-!  registry.py: target documents, naming, and the construction of
target definitions with its dependency graph. -/



namespace Overrun

open Overrun.Graphlib

/-- RegistryFailed.Cause from registry.py. -/
inductive RegistryCause where
  | noConfig
  | dependencyCycle
deriving DecidableEq

/-- RegistryFailed: cause plus optional additional context. -/
structure RegistryFailed where
  cause : RegistryCause
  additional_context : Option String
deriving DecidableEq

/-- The target table of a registry TargetDocument: optional explicit
name and the dependency name list (defaulted to empty by the
registry-side pydantic model). -/
structure RTargetHeader where
  name : Option String
  dependencies : List String
deriving DecidableEq

/-- registry.py TargetDocument: file path, owning project, target
table.  Extra component tables play no role in the paths under
proof (the source leaves components as a todo). -/
structure TargetDocument where
  path : List String
  project : List String
  target : RTargetHeader
deriving DecidableEq

/-- registry.py ComponentDefinition. -/
structure ComponentDefinition where
  name : String
  cls : CompClass
  args : List (String × PyVal)
deriving DecidableEq

/-- registry.py TargetDefinition, dependencies nested as in the
source (a set of TargetDefinition, carried as a list). -/
inductive TargetDefinition where
  | mk (name : String) (path : List String) (project : List String)
      (dependencies : List TargetDefinition)
      (components : List ComponentDefinition)

def TargetDefinition.name : TargetDefinition → String
  | .mk n _ _ _ _ => n

def TargetDefinition.path : TargetDefinition → List String
  | .mk _ p _ _ _ => p

def TargetDefinition.project : TargetDefinition → List String
  | .mk _ _ pr _ _ => pr

def TargetDefinition.dependencies : TargetDefinition → List TargetDefinition
  | .mk _ _ _ d _ => d

/-- The basename of a component-list path (pathlib Path.name). -/
def rpathName (p : List String) : String := p.getLastD ""

/-- _name_from_path: path.name[0 : -(len(path.suffix))].  When the
suffix is empty the Python slice bound is -0 = 0 and the result is the
empty string. -/
def nameFromPath (p : List String) : String :=
  pySliceUpto (rpathName p) (-(Int.ofNat (pathSuffix (rpathName p)).length))

/-- The key expression of the documents_named comprehension:
document.target.name or _name_from_path(document.path), with Python
falsiness (an explicit empty-string name falls through). -/
def docKey (d : TargetDocument) : String :=
  match d.target.name with
  | some s => if s = "" then nameFromPath d.path else s
  | none => nameFromPath d.path

/-- documents_named: a dict comprehension over the document list; a
repeated key keeps its position and silently takes the later value. -/
def documentsNamed (docs : List TargetDocument) :
    List (String × TargetDocument) :=
  docs.foldl (fun m d => dictInsert m (docKey d) d) []

/-- The name-level dependency graph: add(name, *dependencies) for
every named document, in dict order. -/
def buildGraph (dn : List (String × TargetDocument)) : TS String :=
  dn.foldl (fun s kv => s.add kv.1 kv.2.target.dependencies) TS.empty

/-- The set-comprehension {definitions[dep] for dep in dependencies}:
look every dependency name up in the running definitions dict, raising
KeyError on a miss. -/
def depsLookup (m : List (String × TargetDefinition)) :
    List String → Except PyErr (List TargetDefinition)
  | [] => .ok []
  | d :: ds =>
      match dictGet m d with
      | none => .error (.keyError d)
      | some td => (depsLookup m ds).map (fun l => td :: l)

/-- The body of the drain loop for one get_ready batch: mark each name
done, fetch its document (KeyError on an unregistered dependency
name), resolve its dependencies, and record the definition. -/
def buildReady (dn : List (String × TargetDocument)) :
    List String → TS String → List (String × TargetDefinition) →
    Except PyErr (TS String × List (String × TargetDefinition))
  | [], s, m => .ok (s, m)
  | name :: rest, s, m =>
      let s1 := s.doneOne name
      match dictGet dn name with
      | none => .error (.keyError name)
      | some doc =>
          match depsLookup m doc.target.dependencies with
          | .error e => .error e
          | .ok deps =>
              buildReady dn rest s1
                (dictInsert m name
                  (TargetDefinition.mk name doc.path doc.project deps []))

/-- The while graph.is_active() drain loop of _build_target_definitions.
Fuel bounds the iterations; the caller passes one more than the node
count, which suffices because every active iteration finishes at least
one node. -/
def buildLoop (dn : List (String × TargetDocument)) :
    Nat → TS String → List (String × TargetDefinition) →
    Except PyErr (List (String × TargetDefinition))
  | 0, _, _ => .error .fuelExhausted
  | fuel + 1, s, m =>
      if s.isActive then
        let (readyNodes, s1) := s.getReady
        match buildReady dn readyNodes s1 m with
        | .error e => .error e
        | .ok (s2, m2) => buildLoop dn fuel s2 m2
      else .ok m

/-- _build_target_definitions: name the documents, build the
name-level graph, run prepare's cycle check (a cycle becomes a
RegistryFailed with the path joined by the arrow separator), then
construct definitions in topological order.  The error channel carries
Python exceptions (KeyError on an unknown dependency name). -/
def buildTargetDefinitions (docs : List TargetDocument) :
    Except PyErr (Sum RegistryFailed (List TargetDefinition)) :=
  let dn := documentsNamed docs
  let gp := (buildGraph dn).prepareReady
  match gp.findCycle.1 with
  | some cyc =>
      .ok (.inl ⟨.dependencyCycle, some (String.intercalate " -> " cyc)⟩)
  | none =>
      match buildLoop dn (gp.order.length + 1) gp [] with
      | .error e => .error e
      | .ok m => .ok (.inr (m.map Prod.snd))

/-- The Config fields the registry consumes: the mapping from project
directories to their existing target directories. -/
structure Config where
  target_directories : List (List String × List (List String))
deriving DecidableEq

/-- ConfigFailed as the registry sees it. -/
structure ConfigFailed where
  cause : ConfigCause
  additional_context : Option String
deriving DecidableEq

/-- The Registry dataclass fields (never reached by attempt_init). -/
structure Registry where
  target_directories : List (List String × List (List String))
  component_types : List (String × CompClass)

/-- Registry.attempt_init.  A ConfigFailed input becomes a NoConfig
RegistryFailed.  On a Config input the source scans target directories
(abstracted here as the scanDocs argument since it is filesystem I/O),
promotes the valid documents to definitions — discarding the result —
and then unconditionally raises NotImplementedError; an exception
escaping the promotion helper (KeyError on an unknown dependency)
propagates instead. -/
def registryAttemptInit
    (scanDocs : List (List String × List (List String)) →
      List TargetDocument × List (List String × String))
    (config : Sum Config ConfigFailed) :
    Except PyErr (Sum Registry RegistryFailed) :=
  match config with
  | .inr _ => .ok (.inr ⟨.noConfig, none⟩)
  | .inl cfg =>
      let scanned := scanDocs cfg.target_directories
      match buildTargetDefinitions scanned.1 with
      | .error e => .error e
      | .ok _ => .error .notImplementedError

/-- The file filter of _search_target_dir: direct children that are
files whose name ends with ".toml" (the is_file check is implicit in
restricting attention to files). -/
def targetFileFilter (childName : String) : Bool :=
  pyEndsWith childName ".toml"

end Overrun

/-!  runtime.py: the lifecycle driver.  Targets are modelled at the
granularity the claims need: a Target instance exposes its name and
capability booleans (any component with the capability), computed from
the TargetDef it was instantiated from. -/

namespace Overrun

/-- Target.startable for an instance built from this TargetDef: some
component class defines start. -/
def tdStartable (t : TargetDef) : Bool :=
  t.component_defs.any (fun c => c.cls.hasStart)

/-- Target.runable for an instance built from this TargetDef. -/
def tdRunable (t : TargetDef) : Bool :=
  t.component_defs.any (fun c => c.cls.hasRun)

/-- Target.stopable for an instance built from this TargetDef. -/
def tdStopable (t : TargetDef) : Bool :=
  t.component_defs.any (fun c => c.cls.hasStop)

open Overrun.Graphlib

/-- The state _lifecycle_start leaves behind (plus a flag recording
that the loop exited by its condition rather than by fuel).  contexts
and Target construction are tracked by the constructed list: one entry
per get_ready batch element, in processing order. -/
structure StartPhaseResult where
  graph : TS TargetDef
  pending : List TargetDef
  constructed : List TargetDef
  startedOrder : List TargetDef
  finishedNormally : Bool

/-- One get_ready batch of _lifecycle_start: construct each target;
a startable target joins the pending starts, a non-startable one is
marked done in the graph immediately. -/
def startBatch : List TargetDef → TS TargetDef → List TargetDef →
    TS TargetDef × List TargetDef
  | [], s, pending => (s, pending)
  | t :: ts, s, pending =>
      if tdStartable t then startBatch ts s (pending ++ [t])
      else startBatch ts (s.doneOne t) pending

/-- The while-loop of _lifecycle_start.  pick resolves the
FIRST_COMPLETED race: at step i, the pending start with index
pick i mod pending.length finishes next.  Each completed start is
appended to startedOrder (self._targets) and marked done. -/
def startLoop (pick : Nat → Nat) :
    Nat → Nat → TS TargetDef → List TargetDef → List TargetDef →
    List TargetDef → StartPhaseResult
  | 0, _, s, pending, constructed, started =>
      ⟨s, pending, constructed, started, false⟩
  | fuel + 1, i, s, pending, constructed, started =>
      if s.isActive || !pending.isEmpty then
        let (ready, s1) := s.getReady
        let (s2, pending2) := startBatch ready s1 pending
        let constructed2 := constructed ++ ready
        if h : pending2 = [] then
          startLoop pick fuel (i + 1) s2 pending2 constructed2 started
        else
          let j := pick i % pending2.length
          let t := pending2.get ⟨j, Nat.mod_lt _ (List.length_pos.mpr h)⟩
          startLoop pick fuel (i + 1) (s2.doneOne t) (pending2.eraseIdx j)
            constructed2 (started ++ [t])
      else ⟨s, pending, constructed, started, true⟩

/-- _lifecycle_start on a prepared graph, with enough fuel for any
drain (two iterations per node plus one final check). -/
def lifecycleStart (pick : Nat → Nat) (g : TS TargetDef) :
    StartPhaseResult :=
  startLoop pick (2 * g.order.length + 1) 0 g [] [] []

/-- _lifecycle_run's dispatch list: the targets recorded during the
start phase that are runable, in recorded order.  This is the
complete set of targets whose run is ever awaited. -/
def runDispatch (startedOrder : List TargetDef) : List TargetDef :=
  startedOrder.filter tdRunable

/-- _lifecycle_stop's dispatch list: the recorded targets, reversed,
filtered to the stopable ones; stop tasks are created in this order. -/
def stopDispatch (startedOrder : List TargetDef) : List TargetDef :=
  startedOrder.reverse.filter tdStopable

/-- Events of the stop phase at target granularity: a target's stop
coroutine begins (its task is first scheduled) or finishes. -/
inductive StopEv where
  | beginStop (name : String)
  | endStop (name : String)
deriving DecidableEq

/-- The cooperative scheduler driving the stop TaskGroup: a FIFO ready
queue of tasks (target name, remaining suspension points, started
flag).  A scheduled task emits its begin event on first scheduling,
then either finishes (emitting its end event) or suspends and requeues.
This is the single-threaded asyncio event loop: all stop tasks are
created before the phase first awaits, so they all get scheduled. -/
def runStopTasks : List (String × Nat × Bool) → List StopEv
  | [] => []
  | (nm, k, started) :: rest =>
      let pre : List StopEv := if started then [] else [.beginStop nm]
      if k = 0 then pre ++ [.endStop nm] ++ runStopTasks rest
      else pre ++ runStopTasks (rest ++ [(nm, k - 1, true)])
termination_by q => (q.map (fun x => x.2.1 + 1)).sum
decreasing_by
  · simp only [List.map_cons, List.sum_cons]
    omega
  · simp only [List.map_append, List.sum_append, List.map_cons,
      List.sum_cons, List.map_nil, List.sum_nil]
    omega

/-- The Phase 3 trace: one stop task per stopable recorded target,
created in reverse start-completion order; stopYields gives the number
of suspension points of each target's stop coroutine. -/
def stopPhaseTrace (startedOrder : List TargetDef)
    (stopYields : String → Nat) : List StopEv :=
  runStopTasks ((stopDispatch startedOrder).map
    (fun t => (t.name, stopYields t.name, false)))

/-- The begin events of a trace, in order. -/
def beginsOf : List StopEv → List String
  | [] => []
  | .beginStop n :: tr => n :: beginsOf tr
  | .endStop _ :: tr => beginsOf tr

/-- The end events of a trace, in order. -/
def endsOf : List StopEv → List String
  | [] => []
  | .beginStop _ :: tr => endsOf tr
  | .endStop n :: tr => n :: endsOf tr

/-- The maximum number of simultaneously open stops along a trace. -/
def maxOpenAux : List StopEv → Nat → Nat → Nat
  | [], _, mx => mx
  | .beginStop _ :: tr, cur, mx => maxOpenAux tr (cur + 1) (max mx (cur + 1))
  | .endStop _ :: tr, cur, mx => maxOpenAux tr (cur - 1) mx

def maxOpenStops (tr : List StopEv) : Nat := maxOpenAux tr 0 0

/-- Stops are sequential, one at a time: at no point are two stop
coroutines simultaneously between their begin and end events. -/
def StopsOneAtATime (tr : List StopEv) : Prop := maxOpenStops tr ≤ 1

/-- Modelled from the spec: registry.depedency_graph is absent from
src (only its caller in runtime.py and its tests exist).  Per the
spec, it does a DFS from the requested root following dependencies and
returns a topologically prepared DAG keyed by TargetDef; equivalently,
a sorter fed add(td, *td.dependencies) for every TargetDef reachable
from the root, then prepared.  closureList enumerates the reachable
TargetDefs in DFS order (the value graph of a TargetDef is finite and
acyclic by construction, so prepare's cycle check cannot fire). -/
def closureList : TargetDef → List TargetDef
  | .mk n p deps comps =>
      .mk n p deps comps ::
        deps.attach.foldr
          (fun d acc => closureList d.val ++ acc) []
termination_by t => sizeOf t
decreasing_by
  have := List.sizeOf_lt_of_mem d.property
  simp only [TargetDef.mk.sizeOf_spec]
  omega

/-- First-occurrence deduplication (Python dict/graph node identity:
a node is registered once, on first sight). -/
def firstOcc : List TargetDef → List TargetDef → List TargetDef
  | [], _ => []
  | x :: xs, seen =>
      if x ∈ seen then firstOcc xs seen else x :: firstOcc xs (x :: seen)

/-- The distinct reachable TargetDefs of a root, in DFS order. -/
def nodesOf (root : TargetDef) : List TargetDef :=
  firstOcc (closureList root) []

/-- The sorter fed add(td, *td.dependencies) for every reachable
TargetDef, before prepare. -/
def baseGraph (root : TargetDef) : TS TargetDef :=
  (nodesOf root).foldl (fun s t => s.add t t.dependencies) TS.empty

/-- Modelled from the spec: the dependency DAG for a root target. -/
def depedencyGraphSpec (root : TargetDef) : TS TargetDef :=
  (baseGraph root).prepareReady

/-- The number of dependency occurrences of a target that the sorter
does not yet consider finished (the done sentinel is -2). -/
def unfinishedCount (s : TS TargetDef) (t : TargetDef) : Int :=
  ((t.dependencies.filter (fun d => ¬ s.npred d = -2)).length : Int)

/-- The invariant of the _lifecycle_start loop between iterations,
relative to the reachable node set of the root.  It ties the sorter's
counters to the dependency lists, identifies the passed-out-but-
unfinished nodes with the pending starts, characterises the ready
queue, and characterises the constructed and start-completed lists. -/
def SimInv (root : TargetDef) (s : TS TargetDef)
    (pending constructed started : List TargetDef) : Prop :=
  s.succs = (baseGraph root).succs ∧
  s.order = (baseGraph root).order ∧
  s.npassedout = s.nfinished + pending.length ∧
  (∀ t ∈ nodesOf root,
    s.npred t = -1 ∨ s.npred t = -2 ∨ s.npred t = unfinishedCount s t) ∧
  (∀ t ∈ nodesOf root,
    (s.npred t = -1 ∨ s.npred t = -2) → unfinishedCount s t = 0) ∧
  (∀ t ∈ nodesOf root, (s.npred t = -1 ↔ t ∈ pending)) ∧
  pending.Nodup ∧
  (∀ t ∈ pending, t ∈ nodesOf root ∧ tdStartable t = true) ∧
  s.ready.Nodup ∧
  (∀ t ∈ s.ready, t ∈ nodesOf root ∧ s.npred t = 0) ∧
  (∀ t ∈ nodesOf root, s.npred t = 0 → t ∈ s.ready) ∧
  (∀ t, t ∈ constructed ↔
    (t ∈ nodesOf root ∧ (s.npred t = -1 ∨ s.npred t = -2))) ∧
  (∀ t, t ∈ started ↔
    (t ∈ nodesOf root ∧ s.npred t = -2 ∧ tdStartable t = true))

/-- The mid-batch variant of SimInv: rem lists the get_ready batch
elements not yet handled by the startBatch for-loop.  They are passed
out (counter -1) but neither pending nor done yet. -/
def MidInv (root : TargetDef) (s : TS TargetDef)
    (pending constructed started rem : List TargetDef) : Prop :=
  s.succs = (baseGraph root).succs ∧
  s.order = (baseGraph root).order ∧
  s.npassedout = s.nfinished + pending.length + rem.length ∧
  (∀ t ∈ nodesOf root,
    s.npred t = -1 ∨ s.npred t = -2 ∨ s.npred t = unfinishedCount s t) ∧
  (∀ t ∈ nodesOf root,
    (s.npred t = -1 ∨ s.npred t = -2) → unfinishedCount s t = 0) ∧
  (∀ t ∈ nodesOf root,
    (s.npred t = -1 ↔ (t ∈ pending ∨ t ∈ rem))) ∧
  pending.Nodup ∧
  (∀ t ∈ pending, t ∈ nodesOf root ∧ tdStartable t = true) ∧
  s.ready.Nodup ∧
  (∀ t ∈ s.ready, t ∈ nodesOf root ∧ s.npred t = 0) ∧
  (∀ t ∈ nodesOf root, s.npred t = 0 → t ∈ s.ready) ∧
  (∀ t, t ∈ constructed ↔
    (t ∈ nodesOf root ∧ (s.npred t = -1 ∨ s.npred t = -2))) ∧
  (∀ t, t ∈ started ↔
    (t ∈ nodesOf root ∧ s.npred t = -2 ∧ tdStartable t = true)) ∧
  rem.Nodup ∧
  (∀ t ∈ rem, t ∈ nodesOf root ∧ s.npred t = -1 ∧ t ∉ pending ∧
    t ∉ s.ready)

end Overrun

/-!  Specification-side notions for the cycle claims: successor-edge
cycles of a sorter state, the name-level dependency relation of a
document set, and the invariants threaded through the _find_cycle
walk. -/

namespace Overrun.Graphlib

variable {α : Type} [DecidableEq α]

/-- A cycle along the successor relation: at least two entries, the
first repeated as the last (as CycleError reports it), consecutive
entries linked by succs. -/
def IsCycleVia (succs : α → List α) (c : List α) : Prop :=
  2 ≤ c.length ∧ c.head? = c.getLast? ∧
  List.Chain' (fun u v => v ∈ succs u) c

/-- Every finished node's successors were finished strictly earlier
(fin lists the most recently finished node first). -/
def FinClosed (succs : α → List α) (fin : List α) : Prop :=
  ∀ l1 x l2, fin = l1 ++ x :: l2 → ∀ y ∈ succs x, y ∈ l2

/-- Every successor of a stack frame's node is accounted for: still
pending in the frame, already finished, or sitting in a frame above
(the frames above a given frame are passed in as above). -/
def StackExam (succs : α → List α) (fin : List α) :
    List α → List (α × List α) → Prop
  | _, [] => True
  | above, (n, rem) :: rest =>
      (∀ y ∈ succs n, y ∈ rem ∨ y ∈ fin ∨ y ∈ above) ∧
      StackExam succs fin (above ++ [n]) rest

/-- The walk invariant for completeness: seen is exactly the stack
nodes plus the finished nodes, without duplication, finished nodes are
closed under succs up to finishing order, and every frame satisfies
StackExam. -/
def WalkInv (succs : α → List α) (stack : List (α × List α))
    (seen fin : List α) : Prop :=
  (∀ x ∈ seen, x ∈ stack.map Prod.fst ∨ x ∈ fin) ∧
  (∀ x ∈ stack.map Prod.fst, x ∈ seen) ∧
  (∀ x ∈ fin, x ∈ seen) ∧
  (stack.map Prod.fst).Nodup ∧
  fin.Nodup ∧
  (∀ x ∈ stack.map Prod.fst, x ∉ fin) ∧
  FinClosed succs fin ∧
  StackExam succs fin [] stack

/-- The stack invariant for soundness: pending successor lists belong
to their frame's node and adjacent frames are successor-linked (the
upper frame's node is a successor of the one below). -/
def StackOK (succs : α → List α) (stack : List (α × List α)) : Prop :=
  (∀ fr ∈ stack, ∀ y ∈ fr.2, y ∈ succs fr.1) ∧
  List.Chain' (fun g h => g.1 ∈ succs h.1) stack

end Overrun.Graphlib

namespace Overrun

/-- The name-level dependency edge of a named document set, oriented
as the sorter's successor relation: u precedes v when v is a named
target whose dependency list contains u. -/
def DocEdge (dn : List (String × TargetDocument)) (u v : String) :
    Prop :=
  ∃ doc, (v, doc) ∈ dn ∧ u ∈ doc.target.dependencies

/-- A cycle in the name-level dependency relation of a document set
(first element repeated as the last). -/
def DocCycle (dn : List (String × TargetDocument)) (c : List String) :
    Prop :=
  2 ≤ c.length ∧ c.head? = c.getLast? ∧ List.Chain' (DocEdge dn) c

end Overrun

/-!  ###################  Theorems  ###################

Helper lemmas first, then one theorem per claim (with witness or
counterexample theorems as the claim's status requires). -/

namespace Overrun

theorem rpathName_concat (dir : List String) (base : String) :
    rpathName (dir ++ [base]) = base := by
  simp [rpathName]

/-- C10: a file named exactly ".toml" passes the target-file filter
(endswith ".toml" holds) although its pathlib suffix is empty, so the
slice name[0:-0] = name[0:0] makes the path-derived default name the
empty string; a document for such a file with no explicit target.name
is therefore keyed under the name "". -/
theorem c10_dot_toml_yields_empty_name
    (dir project : List String) (deps : List String) :
    targetFileFilter ".toml" = true ∧
    pathSuffix ".toml" = "" ∧
    nameFromPath (dir ++ [".toml"]) = "" ∧
    docKey ⟨dir ++ [".toml"], project, ⟨none, deps⟩⟩ = "" := by
  refine ⟨by decide, by decide, ?_, ?_⟩
  · rw [nameFromPath, rpathName_concat]
    decide
  · rw [docKey]
    simp only
    rw [nameFromPath, rpathName_concat]
    decide

theorem pyEq_mk_unfold (n1 p1 d1 c1 n2 p2 d2 c2) :
    TargetDef.pyEq (.mk n1 p1 d1 c1) (.mk n2 p2 d2 c2) =
      (n1 = n2 && p1 = p2 && c1 = c2 &&
        (d1.attach.all fun x =>
          d2.attach.any fun y => TargetDef.pyEq x.val y.val) &&
        (d2.attach.all fun y =>
          d1.attach.any fun x => TargetDef.pyEq x.val y.val)) := by
  rw [TargetDef.pyEq]

/-- C8 counterexample: two TargetDef values agreeing on (name, path)
but differing in dependencies are not equal under the dataclass
__eq__, contradicting the claim that equality is determined by
(name, path) alone. -/
theorem c8_counterexample :
    let d := TargetDef.mk "a" "p" [] []
    let t1 := TargetDef.mk "x" "q" [] []
    let t2 := TargetDef.mk "x" "q" [d] []
    t1.name = t2.name ∧ t1.path = t2.path ∧
    TargetDef.pyEq t1 t2 = false := by
  refine ⟨rfl, rfl, ?_⟩
  rw [pyEq_mk_unfold]
  simp [List.attach]

theorem pyEq_refl_aux :
    ∀ (n : Nat) (t : TargetDef), sizeOf t ≤ n →
      TargetDef.pyEq t t = true := by
  intro n
  induction n with
  | zero =>
      intro t ht
      cases t with
      | mk nm p d c =>
          simp [TargetDef.mk.sizeOf_spec] at ht
  | succ n ih =>
      intro t ht
      cases t with
      | mk nm p d c =>
          rw [pyEq_mk_unfold]
          simp only [decide_eq_true_eq, Bool.and_eq_true,
            List.all_eq_true, List.any_eq_true, and_true, true_and,
            eq_self_iff_true]
          constructor <;>
            (intro x hx
             refine ⟨x, hx, ?_⟩
             apply ih
             have hs := List.sizeOf_lt_of_mem x.property
             simp only [TargetDef.mk.sizeOf_spec] at ht
             omega)

theorem pyEq_refl (t : TargetDef) : TargetDef.pyEq t t = true :=
  pyEq_refl_aux (sizeOf t) t (Nat.le_refl _)

/-- C8 amended: TargetDef equality is the dataclass field-wise
equality — names, paths and component lists must agree and the
dependency fields must be equal as sets (mutually contained under this
same equality); it is reflexive and implies equality of the hash key,
while the hash key (the f-string concatenation of name and path) is
determined by (name, path) alone exactly as the claim says of the
hash. -/
theorem c8_eq_is_fieldwise_hash_is_name_path :
    (∀ t1 t2 : TargetDef, TargetDef.pyEq t1 t2 = true ↔
      (t1.name = t2.name ∧ t1.path = t2.path ∧
       t1.component_defs = t2.component_defs ∧
       (∀ x ∈ t1.dependencies, ∃ y ∈ t2.dependencies,
          TargetDef.pyEq x y = true) ∧
       (∀ y ∈ t2.dependencies, ∃ x ∈ t1.dependencies,
          TargetDef.pyEq x y = true))) ∧
    (∀ t : TargetDef, TargetDef.pyEq t t = true) ∧
    (∀ t1 t2 : TargetDef, TargetDef.pyEq t1 t2 = true →
       t1.pyHashKey = t2.pyHashKey) ∧
    (∀ t1 t2 : TargetDef, t1.name = t2.name → t1.path = t2.path →
       t1.pyHashKey = t2.pyHashKey) := by
  have hiff : ∀ t1 t2 : TargetDef, TargetDef.pyEq t1 t2 = true ↔
      (t1.name = t2.name ∧ t1.path = t2.path ∧
       t1.component_defs = t2.component_defs ∧
       (∀ x ∈ t1.dependencies, ∃ y ∈ t2.dependencies,
          TargetDef.pyEq x y = true) ∧
       (∀ y ∈ t2.dependencies, ∃ x ∈ t1.dependencies,
          TargetDef.pyEq x y = true)) := by
    intro t1 t2
    cases t1 with
    | mk n1 p1 d1 c1 =>
        cases t2 with
        | mk n2 p2 d2 c2 =>
            rw [pyEq_mk_unfold]
            simp only [decide_eq_true_eq, Bool.and_eq_true,
              List.all_eq_true, List.any_eq_true, TargetDef.name,
              TargetDef.path, TargetDef.component_defs,
              TargetDef.dependencies]
            constructor
            · rintro ⟨⟨⟨⟨h1, h2⟩, h3⟩, h4⟩, h5⟩
              refine ⟨h1, h2, h3, ?_, ?_⟩
              · intro x hx
                obtain ⟨y, hy, hxy⟩ := h4 ⟨x, hx⟩ (List.mem_attach _ _)
                exact ⟨y.val, y.property, hxy⟩
              · intro y hy
                obtain ⟨x, hx, hxy⟩ := h5 ⟨y, hy⟩ (List.mem_attach _ _)
                exact ⟨x.val, x.property, hxy⟩
            · rintro ⟨h1, h2, h3, h4, h5⟩
              refine ⟨⟨⟨⟨h1, h2⟩, h3⟩, ?_⟩, ?_⟩
              · intro x _
                obtain ⟨y, hy, hxy⟩ := h4 x.val x.property
                exact ⟨⟨y, hy⟩, List.mem_attach _ _, hxy⟩
              · intro y _
                obtain ⟨x, hx, hxy⟩ := h5 y.val y.property
                exact ⟨⟨x, hx⟩, List.mem_attach _ _, hxy⟩
  refine ⟨hiff, pyEq_refl, ?_, ?_⟩
  · intro t1 t2 h
    obtain ⟨h1, h2, -⟩ := (hiff t1 t2).mp h
    rw [TargetDef.pyHashKey, TargetDef.pyHashKey, h1, h2]
  · intro t1 t2 h1 h2
    rw [TargetDef.pyHashKey, TargetDef.pyHashKey, h1, h2]

theorem targetStopRun_all_ok (l : List CompInst)
    (h : ∀ c ∈ l, c.stopOutcome = .ok ()) :
    targetStopRun l = (l.map CompInst.cname, .ok ()) := by
  induction l with
  | nil => rfl
  | cons c rest ih =>
      have hc := h c (by simp)
      rw [targetStopRun, hc, ih (fun d hd => h d (by simp [hd]))]
      simp

theorem targetStopRun_first_error (good : List CompInst) (c : CompInst)
    (rest : List CompInst) (e : String)
    (hgood : ∀ d ∈ good, d.stopOutcome = .ok ())
    (hc : c.stopOutcome = .error e) :
    targetStopRun (good ++ c :: rest) =
      (good.map CompInst.cname ++ [c.cname], .error e) := by
  induction good with
  | nil => simp [targetStopRun, hc]
  | cons d ds ih =>
      have hd := hgood d (by simp)
      simp only [List.cons_append, targetStopRun, hd, List.append_eq]
      rw [ih (fun x hx => hgood x (by simp [hx]))]
      simp

/-- C4 counterexample: a target with two stopable components where the
later-declared one's stop raises.  Target.stop invokes only the
later-declared component: the exception propagates out of the loop and
the earlier-declared component's stop is never invoked, contradicting
the claim that a failure does not prevent remaining stops. -/
theorem c4_counterexample :
    targetStop
      [⟨"c1", ⟨"t1", false, false, true, false⟩, .ok ()⟩,
       ⟨"c2", ⟨"t2", false, false, true, false⟩, .error "boom"⟩] =
      (["c2"], .error "boom") ∧
    "c1" ∉ (targetStop
      [⟨"c1", ⟨"t1", false, false, true, false⟩, .ok ()⟩,
       ⟨"c2", ⟨"t2", false, false, true, false⟩, .error "boom"⟩]).1 := by
  constructor
  · rfl
  · intro h
    simp [targetStop, stopablesOf, targetStopRun] at h

/-- C4 amended: Target.stop invokes the stopable components
sequentially in reverse declared order; when every stopable stop
succeeds all of them are invoked, but a raised failure propagates
immediately, so the stopable components declared before the failing
one (which come after it in the reversed iteration) are skipped. -/
theorem c4_stop_reverse_order_failure_aborts :
    (∀ components : List CompInst,
      (∀ c ∈ stopablesOf components, c.stopOutcome = .ok ()) →
      targetStop components =
        ((stopablesOf components).reverse.map CompInst.cname, .ok ())) ∧
    (∀ (pre post : List CompInst) (c : CompInst) (e : String),
      c.cls.hasStop = true → c.stopOutcome = .error e →
      (∀ d ∈ stopablesOf post, d.stopOutcome = .ok ()) →
      targetStop (pre ++ c :: post) =
        ((stopablesOf post).reverse.map CompInst.cname ++ [c.cname],
         .error e)) := by
  constructor
  · intro components h
    rw [targetStop, targetStopRun_all_ok]
    intro d hd
    exact h d (List.mem_reverse.mp hd)
  · intro pre post c e hstop herr hpost
    rw [targetStop]
    have hsplit : stopablesOf (pre ++ c :: post) =
        stopablesOf pre ++ c :: stopablesOf post := by
      simp [stopablesOf, List.filter_append, List.filter_cons, hstop]
    rw [hsplit]
    simp only [List.reverse_append, List.reverse_cons]
    rw [List.append_assoc]
    simp only [List.singleton_append]
    rw [targetStopRun_first_error ((stopablesOf post).reverse) c
      (stopablesOf pre).reverse e
      (fun d hd => hpost d (List.mem_reverse.mp hd)) herr]

/-- C4 witness: the amended theorem applied at a concrete component
list, discharging its hypotheses. -/
theorem c4_witness :
    targetStop
      [⟨"early", ⟨"t1", false, false, true, false⟩, .ok ()⟩,
       ⟨"bad", ⟨"t2", false, false, true, false⟩, .error "x"⟩,
       ⟨"late", ⟨"t3", false, false, true, false⟩, .ok ()⟩] =
      (["late", "bad"], .error "x") := by
  have h := c4_stop_reverse_order_failure_aborts.2
    [⟨"early", ⟨"t1", false, false, true, false⟩, .ok ()⟩]
    [⟨"late", ⟨"t3", false, false, true, false⟩, .ok ()⟩]
    ⟨"bad", ⟨"t2", false, false, true, false⟩, .error "x"⟩ "x"
    rfl rfl (by intro d hd; simp [stopablesOf] at hd; rw [hd])
  simpa [stopablesOf] using h

/-- C5 counterexample: with OVERRUN_CONFIG set to a nonexistent path
and no explicit config_file argument, the claim demands an
EnvPathNotFound failure, but attempt_init never calls
_config_file_search in its None arm: it succeeds with no file and
checks no path at all. -/
theorem c5_counterexample :
    attemptInitFileChoice (fun _ => false) "/home/user"
      (some "/missing/overrun.toml") .noArg = (.ok .noFile, []) := rfl

/-- C5 amended: the env / explicit / default resolution of
_config_file_search runs only when an explicit path argument is
passed.  With no argument (or a byte stream) nothing is consulted —
neither OVERRUN_CONFIG nor the default path.  When a path argument is
given: a set, non-empty OVERRUN_CONFIG takes priority (its value is
used if it exists after tilde-expansion, else EnvPathNotFound), an
unset or empty variable defers to the explicit path (used if it
exists after tilde-expansion, else ExplicitPathNotFound), and the
default location is never reached on this call path either. -/
theorem c5_search_only_with_explicit_path :
    (∀ fsx home envVar,
      attemptInitFileChoice fsx home envVar .noArg = (.ok .noFile, []) ∧
      attemptInitFileChoice fsx home envVar .stream =
        (.ok .fromStream, [])) ∧
    (∀ fsx home env p, env ≠ "" →
      attemptInitFileChoice fsx home (some env) (.path p) =
        (if fsx (expandUser home env) then (.ok (.file env))
         else (.error .envPathNotFound), [expandUser home env])) ∧
    (∀ fsx home p,
      attemptInitFileChoice fsx home none (.path p) =
        (if fsx (expandUser home p) then (.ok (.file p))
         else (.error .explicitPathNotFound), [expandUser home p])) ∧
    (∀ fsx home p,
      attemptInitFileChoice fsx home (some "") (.path p) =
        attemptInitFileChoice fsx home none (.path p)) := by
  refine ⟨fun fsx home envVar => ⟨rfl, rfl⟩, ?_, ?_, ?_⟩
  · intro fsx home env p henv
    rw [attemptInitFileChoice, configFileSearch]
    simp only [henv, ne_eq, not_false_iff, if_true]
    by_cases hf : fsx (expandUser home env) <;> simp [hf]
  · intro fsx home p
    rw [attemptInitFileChoice, configFileSearch,
      configFileSearch.configFileSearchRest]
    by_cases hf : fsx (expandUser home p) <;> simp [hf]
  · intro fsx home p
    rw [attemptInitFileChoice, attemptInitFileChoice, configFileSearch,
      configFileSearch]
    simp

/-- C5 witness: the amended theorem applied at concrete inputs. -/
theorem c5_witness :
    attemptInitFileChoice (fun _ => false) "/h" (some "/cfg.toml")
      (.path "/mine.toml") = (.error .envPathNotFound, ["/cfg.toml"]) := by
  have h := c5_search_only_with_explicit_path.2.1
    (fun _ => false) "/h" "/cfg.toml" "/mine.toml" (by decide)
  simpa [expandUser] using h

/-- C9: Registry.attempt_init propagates a ConfigFailed as a NoConfig
RegistryFailed, but on every valid Config it ends in an unconditional
raise NotImplementedError (the promotion result is discarded), so it
does not return a Registry-or-RegistryFailed value as the claim
states.  Evaluated here with a scan yielding no target files: the
outcome is the raised NotImplementedError. -/
theorem c9_attempt_init_raises :
    (∀ scanDocs f,
      registryAttemptInit scanDocs (.inr f) =
        .ok (.inr ⟨.noConfig, none⟩)) ∧
    (∀ cfg, registryAttemptInit (fun _ => ([], [])) (.inl cfg) =
      .error .notImplementedError) := by
  constructor
  · intro scanDocs f
    rfl
  · intro cfg
    rfl

theorem ancestorChain_length_le :
    ∀ (n : Nat) (pwd : Dir), pwd.length ≤ n →
      ∀ a ∈ ancestorChain pwd, a.length ≤ pwd.length := by
  intro n
  induction n with
  | zero =>
      intro pwd hlen a ha
      match pwd, hlen with
      | [], _ =>
          rw [ancestorChain] at ha
          simp at ha
          simp [ha]
  | succ n ih =>
      intro pwd hlen a ha
      match pwd with
      | [] =>
          rw [ancestorChain] at ha
          simp at ha
          simp [ha]
      | d :: ds =>
          rw [ancestorChain] at ha
          rcases List.mem_cons.mp ha with h | h
          · simp [h]
          · have hdl : (d :: ds).dropLast.length ≤ n := by
              simp [List.length_dropLast] at *
              omega
            have := ih (d :: ds).dropLast hdl a h
            simp [List.length_dropLast] at this ⊢
            omega

theorem recursiveFindProject_eq_find (fsd : Dir → Bool)
    (opts : PatternOpts) :
    ∀ (n : Nat) (pwd : Dir), pwd.length ≤ n →
      recursiveFindProject fsd opts pwd =
        (ancestorChain pwd).find? (hasProjectIndicator fsd opts) := by
  intro n
  induction n with
  | zero =>
      intro pwd hlen
      match pwd, hlen with
      | [], _ =>
          rw [recursiveFindProject, ancestorChain]
          rcases h : hasProjectIndicator fsd opts [] <;> simp [List.find?, h]
  | succ n ih =>
      intro pwd hlen
      match pwd with
      | [] =>
          rw [recursiveFindProject, ancestorChain]
          rcases h : hasProjectIndicator fsd opts [] <;> simp [List.find?, h]
      | d :: ds =>
          rw [recursiveFindProject, ancestorChain]
          rcases h : hasProjectIndicator fsd opts (d :: ds) with _ | _
          · simp only [h, List.find?, Bool.false_eq_true, if_false]
            apply ih
            simp [List.length_dropLast] at *
            omega
          · simp only [h, List.find?, if_true]

theorem c6_nearest_aux (fsd : Dir → Bool) (opts : PatternOpts) :
    ∀ (n : Nat) (pwd : Dir), pwd.length ≤ n →
      ∀ d, recursiveFindProject fsd opts pwd = some d →
        d ∈ ancestorChain pwd ∧
        hasProjectIndicator fsd opts d = true ∧
        ∀ a ∈ ancestorChain pwd,
          hasProjectIndicator fsd opts a = true → a.length ≤ d.length := by
  intro n
  induction n with
  | zero =>
      intro pwd hlen d hd
      match pwd, hlen with
      | [], _ =>
          rw [recursiveFindProject] at hd
          rcases h : hasProjectIndicator fsd opts [] with _ | _ <;>
            simp [h] at hd
          rw [ancestorChain]
          subst hd
          simp [h]
  | succ n ih =>
      intro pwd hlen d hd
      match pwd with
      | [] =>
          rw [recursiveFindProject] at hd
          rcases h : hasProjectIndicator fsd opts [] with _ | _ <;>
            simp [h] at hd
          rw [ancestorChain]
          subst hd
          simp [h]
      | d0 :: ds =>
          rw [recursiveFindProject] at hd
          rcases h : hasProjectIndicator fsd opts (d0 :: ds) with _ | _
          · rw [if_neg (by simp [h])] at hd
            have hdl : (d0 :: ds).dropLast.length ≤ n := by
              simp [List.length_dropLast] at *
              omega
            obtain ⟨hmem, hind, hmax⟩ := ih (d0 :: ds).dropLast hdl d hd
            rw [ancestorChain]
            refine ⟨by simp [hmem], hind, ?_⟩
            intro a ha hia
            rcases List.mem_cons.mp ha with h2 | h2
            · rw [h2] at hia
              rw [hia] at h
              cases h
            · exact hmax a h2 hia
          · rw [if_pos (by simp [h])] at hd
            rw [Option.some_inj] at hd
            subst hd
            rw [ancestorChain]
            refine ⟨by simp, h, ?_⟩
            intro a ha _
            rcases List.mem_cons.mp ha with h2 | h2
            · simp [h2]
            · have hdl : (d0 :: ds).dropLast.length ≤ n := by
                simp [List.length_dropLast] at *
                omega
              have := ancestorChain_length_le n (d0 :: ds).dropLast hdl a h2
              simp [List.length_dropLast] at this ⊢
              omega

/-- C6: CWP discovery returns the nearest ancestor (the starting
directory included, the filesystem root included) that has a project
indicator as a direct child, and fails with NotInProject exactly when
no ancestor has one.  Nearness: the result is the qualifying ancestor
with the greatest depth. -/
theorem c6_cwp_nearest_ancestor (fsd : Dir → Bool) (opts : PatternOpts)
    (pwd : Dir) :
    (cwpDiscover fsd opts pwd =
      match (ancestorChain pwd).find? (hasProjectIndicator fsd opts) with
      | some d => .ok d
      | none => .error .notInProject) ∧
    (∀ d, recursiveFindProject fsd opts pwd = some d →
      d ∈ ancestorChain pwd ∧
      hasProjectIndicator fsd opts d = true ∧
      ∀ a ∈ ancestorChain pwd,
        hasProjectIndicator fsd opts a = true → a.length ≤ d.length) := by
  constructor
  · rw [cwpDiscover,
      recursiveFindProject_eq_find fsd opts pwd.length pwd (Nat.le_refl _)]
  · exact c6_nearest_aux fsd opts pwd.length pwd (Nat.le_refl _)

/-- C6 witness: discovery applied on a concrete filesystem — from
foo/bar/baz the nearest indicator-carrying ancestor is foo. -/
theorem c6_witness :
    cwpDiscover
      (fun d => d = ["foo", ".overrun"] ∨ d = [".overrun"])
      ⟨[[".overrun"]]⟩ ["foo", "bar", "baz"] = .ok ["foo"] ∧
    (["foo"] : Dir) ∈ ancestorChain ["foo", "bar", "baz"] := by
  have h := (c6_cwp_nearest_ancestor
    (fun d => d = ["foo", ".overrun"] ∨ d = [".overrun"])
    ⟨[[".overrun"]]⟩ ["foo", "bar", "baz"]).1
  have hchain : ancestorChain ["foo", "bar", "baz"] =
      [["foo", "bar", "baz"], ["foo", "bar"], ["foo"], []] := by
    rw [ancestorChain]
    norm_num [List.dropLast]
    rw [ancestorChain]
    norm_num [List.dropLast]
    rw [ancestorChain]
    norm_num [List.dropLast]
    rw [ancestorChain]
  constructor
  · rw [h, hchain]
    simp [List.find?, hasProjectIndicator]
  · rw [hchain]
    simp

theorem beginsOf_append (a b : List StopEv) :
    beginsOf (a ++ b) = beginsOf a ++ beginsOf b := by
  induction a with
  | nil => rfl
  | cons e rest ih =>
      cases e <;> simp [beginsOf, ih]

theorem endsOf_append (a b : List StopEv) :
    endsOf (a ++ b) = endsOf a ++ endsOf b := by
  induction a with
  | nil => rfl
  | cons e rest ih =>
      cases e <;> simp [endsOf, ih]

theorem beginsOf_runStopTasks :
    ∀ q : List (String × Nat × Bool),
      beginsOf (runStopTasks q) =
        ((q.filter (fun e => !e.2.2)).map (fun e => e.1)) := by
  intro q
  induction q using runStopTasks.induct with
  | case1 => rw [runStopTasks]; rfl
  | case2 nm started rest ih =>
      rw [runStopTasks]
      cases started <;>
        simp [beginsOf_append, beginsOf, ih, List.filter_cons]
  | case3 nm k started rest hk ih =>
      rw [runStopTasks]
      rw [if_neg hk]
      cases started <;>
        simp [beginsOf_append, beginsOf, ih, List.filter_cons,
          List.filter_append, List.map_append]

theorem endsOf_runStopTasks_perm :
    ∀ q : List (String × Nat × Bool),
      (endsOf (runStopTasks q)).Perm (q.map (fun e => e.1)) := by
  intro q
  induction q using runStopTasks.induct with
  | case1 => rw [runStopTasks]; rfl
  | case2 nm started rest ih =>
      rw [runStopTasks]
      cases started <;>
        · simp only [endsOf_append, endsOf, List.map_cons]
          simpa using List.Perm.cons nm ih
  | case3 nm k started rest hk ih =>
      rw [runStopTasks]
      rw [if_neg hk]
      cases started <;>
      · simp only [endsOf_append, endsOf, List.map_cons]
        refine List.Perm.trans ?_ (List.perm_append_singleton nm _)
        simpa using ih

/-- C1 counterexample: a run whose start phase completed targets a
then b, both with a stop-capable component whose stop suspends once
(any real stop, such as the exec component's awaited process wait,
suspends).  The stop phase creates both stop tasks before awaiting, so
under the event loop b's stop begins, then a's stop begins, and only
then does b's stop finish: the second stop begins before the previous
stop has finished, and the stops are not one at a time. -/
theorem c1_counterexample :
    stopPhaseTrace
      [.mk "a" "pa" [] [⟨"exec", ⟨"exec", true, true, true, false⟩, []⟩],
       .mk "b" "pb" [] [⟨"exec", ⟨"exec", true, true, true, false⟩, []⟩]]
      (fun _ => 1) =
      [.beginStop "b", .beginStop "a", .endStop "b", .endStop "a"] ∧
    ¬ StopsOneAtATime
      (stopPhaseTrace
        [.mk "a" "pa" [] [⟨"exec", ⟨"exec", true, true, true, false⟩, []⟩],
         .mk "b" "pb" [] [⟨"exec", ⟨"exec", true, true, true, false⟩, []⟩]]
        (fun _ => 1)) := by
  have htr : stopPhaseTrace
      [.mk "a" "pa" [] [⟨"exec", ⟨"exec", true, true, true, false⟩, []⟩],
       .mk "b" "pb" [] [⟨"exec", ⟨"exec", true, true, true, false⟩, []⟩]]
      (fun _ => 1) =
      [.beginStop "b", .beginStop "a", .endStop "b", .endStop "a"] := by
    rw [stopPhaseTrace]
    rw [show stopDispatch
        [.mk "a" "pa" [] [⟨"exec", ⟨"exec", true, true, true, false⟩, []⟩],
         .mk "b" "pb" [] [⟨"exec", ⟨"exec", true, true, true, false⟩, []⟩]] =
        [.mk "b" "pb" [] [⟨"exec", ⟨"exec", true, true, true, false⟩, []⟩],
         .mk "a" "pa" [] [⟨"exec", ⟨"exec", true, true, true, false⟩, []⟩]]
      from by simp [stopDispatch, tdStopable, TargetDef.component_defs]]
    simp only [List.map_cons, List.map_nil, TargetDef.name]
    simp [runStopTasks]
  refine ⟨htr, ?_⟩
  rw [htr]
  intro h
  rw [StopsOneAtATime] at h
  simp [maxOpenStops, maxOpenAux] at h

/-- C1 amended: phase 3 creates one stop task per stopable target, in
exactly the reverse of the start-completion order, and awaits them all
concurrently: the begin events occur in that reverse order and every
dispatched stop runs to completion, but the stops are not serialized —
a stop may begin before the previously dispatched stop has finished
(see the counterexample evaluation). -/
theorem c1_stop_dispatch_reverse_concurrent
    (startedOrder : List TargetDef) (stopYields : String → Nat) :
    beginsOf (stopPhaseTrace startedOrder stopYields) =
      (stopDispatch startedOrder).map TargetDef.name ∧
    (endsOf (stopPhaseTrace startedOrder stopYields)).Perm
      ((stopDispatch startedOrder).map TargetDef.name) := by
  constructor
  · rw [stopPhaseTrace, beginsOf_runStopTasks]
    simp [List.filter_map, List.map_map, Function.comp_def]
  · rw [stopPhaseTrace]
    have h := endsOf_runStopTasks_perm
      ((stopDispatch startedOrder).map
        (fun t => (t.name, stopYields t.name, false)))
    rw [List.map_map] at h
    simpa using h

/-- C2: two valid target documents from different projects whose files
are both named one.toml (no explicit target.name) resolve to the same
name.  _build_target_definitions keys the documents by name in a dict
comprehension, so the second document silently overwrites the first:
construction succeeds with a single definition carrying only the
second file's path, and no TargetErrors (or any other failure) is
surfaced.  The comment in Registry.attempt_init and the registry tests
expect a collision to raise an aggregate TargetErrors naming both
paths, so this is a bug in the code. -/
theorem c2_collision_silently_overwrites :
    documentsNamed
      [⟨["proj-a", "one.toml"], ["proj-a"], ⟨none, []⟩⟩,
       ⟨["proj-b", "one.toml"], ["proj-b"], ⟨none, []⟩⟩] =
      [("one", ⟨["proj-b", "one.toml"], ["proj-b"], ⟨none, []⟩⟩)] ∧
    buildTargetDefinitions
      [⟨["proj-a", "one.toml"], ["proj-a"], ⟨none, []⟩⟩,
       ⟨["proj-b", "one.toml"], ["proj-b"], ⟨none, []⟩⟩] =
      .ok (.inr [.mk "one" ["proj-b", "one.toml"] ["proj-b"] [] []]) := by
  constructor
  · rfl
  · have hdn : documentsNamed
        [⟨["proj-a", "one.toml"], ["proj-a"], ⟨none, []⟩⟩,
         ⟨["proj-b", "one.toml"], ["proj-b"], ⟨none, []⟩⟩] =
        [("one", ⟨["proj-b", "one.toml"], ["proj-b"], ⟨none, []⟩⟩)] := rfl
    rw [buildTargetDefinitions]
    simp only [hdn]
    simp [buildGraph, Graphlib.TS.add, Graphlib.TS.register,
      Graphlib.TS.empty, Graphlib.TS.prepareReady,
      Graphlib.TS.findCycle, Graphlib.findCycleFrom, Graphlib.walkDFS,
      Graphlib.takeThrough, Graphlib.TS.getReady, Graphlib.TS.doneOne,
      Graphlib.TS.isActive, buildLoop, buildReady, depsLookup,
      dictGet, dictInsert]

namespace Graphlib

variable {α : Type} [DecidableEq α]

theorem takeThrough_ne_nil (s : α) (l : List α) (h : s ∈ l) :
    takeThrough s l ≠ [] := by
  cases l with
  | nil => simp at h
  | cons x xs =>
      rw [takeThrough]
      by_cases hx : x = s <;> simp [hx]

theorem takeThrough_getLast (s : α) :
    ∀ l : List α, s ∈ l → (takeThrough s l).getLast? = some s := by
  intro l
  induction l with
  | nil => intro h; simp at h
  | cons x xs ih =>
      intro h
      rw [takeThrough]
      by_cases hx : x = s
      · simp [hx]
      · rw [if_neg hx]
        have hmem : s ∈ xs := by
          rcases List.mem_cons.mp h with h2 | h2
          · exact absurd h2.symm hx
          · exact h2
        have hne := takeThrough_ne_nil s xs hmem
        cases hc : takeThrough s xs with
        | nil => exact absurd hc hne
        | cons b bs =>
            rw [List.getLast?_cons_cons, ← hc, ih hmem]

theorem takeThrough_head (s x : α) (xs : List α) :
    (takeThrough s (x :: xs)).head? = some x := by
  rw [takeThrough]
  by_cases hx : x = s <;> simp [hx]

theorem chain'_takeThrough (R : α → α → Prop) (s : α) :
    ∀ l : List α, List.Chain' R l → List.Chain' R (takeThrough s l) := by
  intro l
  induction l with
  | nil => intro h; simpa [takeThrough] using h
  | cons x xs ih =>
      intro h
      rw [takeThrough]
      by_cases hx : x = s
      · simp [hx]
      · rw [if_neg hx]
        cases xs with
        | nil => simpa [takeThrough] using h
        | cons y ys =>
            obtain ⟨hxy, htail⟩ := List.chain'_cons.mp
              (by simpa using h)
            have htt := ih htail
            rw [takeThrough]
            by_cases hy : y = s
            · simp only [if_pos hy]
              exact List.chain'_cons.mpr ⟨hxy, List.chain'_singleton y⟩
            · rw [if_neg hy]
              rw [takeThrough, if_neg hy] at htt
              exact List.chain'_cons.mpr ⟨hxy, htt⟩

theorem stackOK_tail (succs : α → List α) (fr : α × List α)
    (rest : List (α × List α)) (h : StackOK succs (fr :: rest)) :
    StackOK succs rest := by
  obtain ⟨h1, h2⟩ := h
  exact ⟨fun p hp => h1 p (by simp [hp]), h2.tail⟩

theorem stackOK_shrink_top (succs : α → List α) (n s : α)
    (srest : List α) (rest : List (α × List α))
    (h : StackOK succs ((n, s :: srest) :: rest)) :
    StackOK succs ((n, srest) :: rest) := by
  obtain ⟨h1, h2⟩ := h
  constructor
  · intro p hp y hy
    rcases List.mem_cons.mp hp with h3 | h3
    · rw [h3]
      exact h1 (n, s :: srest) (by simp) y (by
        rw [h3] at hy
        exact List.mem_cons_of_mem s hy)
    · exact h1 p (by simp [h3]) y hy
  · cases rest with
    | nil => simp
    | cons fr2 rest2 =>
        obtain ⟨hrel, htail⟩ := List.chain'_cons.mp h2
        exact List.chain'_cons.mpr ⟨hrel, htail⟩

theorem stackOK_push (succs : α → List α) (n s : α)
    (srest : List α) (rest : List (α × List α))
    (h : StackOK succs ((n, s :: srest) :: rest)) :
    StackOK succs ((s, succs s) :: (n, srest) :: rest) := by
  have hs : s ∈ succs n := h.1 (n, s :: srest) (by simp) s (by simp)
  have h' := stackOK_shrink_top succs n s srest rest h
  obtain ⟨h1, h2⟩ := h'
  constructor
  · intro p hp y hy
    rcases List.mem_cons.mp hp with h3 | h3
    · rw [h3] at hy
      simp only at hy
      rw [h3]
      exact hy
    · exact h1 p h3 y hy
  · exact List.chain'_cons.mpr ⟨hs, h2⟩

theorem walkDFS_sound (succs : α → List α) (univ : List α)
    (hsucc : ∀ x, ∀ y ∈ succs x, y ∈ univ) :
    ∀ (stack : List (α × List α)) (seen fin : List α)
      (hstack : ∀ p ∈ stack, ∀ y ∈ p.2, y ∈ univ) (c : List α),
      walkDFS succs univ hsucc stack seen fin hstack = .inl c →
      StackOK succs stack → IsCycleVia succs c := by
  intro stack seen fin hstack c hres hok
  induction stack, seen, fin, hstack using walkDFS.induct succs univ hsucc
  case case1 seen fin hstack =>
      rw [walkDFS] at hres
      cases hres
  case case2 n rest seen fin hstack hstack2 ih =>
      rw [walkDFS] at hres
      exact ih hres (stackOK_tail succs (n, []) rest hok)
  case case3 n s srest rest seen fin hstack hmem hstack2 =>
      rw [walkDFS] at hres
      rw [if_pos hmem] at hres
      injection hres with hres
      subst hres
      set fsts := ((n, srest) :: rest).map Prod.fst with hfsts
      have hfsts_head : fsts = n :: rest.map Prod.fst := by
        simp [hfsts]
      have hchain : List.Chain' (fun u v => u ∈ succs v) fsts := by
        have h2 := hok.2
        rw [List.chain'_map Prod.fst]
        have : List.Chain'
            (fun g h : α × List α => g.1 ∈ succs h.1)
            ((n, srest) :: rest) := by
          cases rest with
          | nil => simp
          | cons fr2 rest2 =>
              obtain ⟨hrel, htail⟩ := List.chain'_cons.mp h2
              exact List.chain'_cons.mpr ⟨hrel, htail⟩
        exact this
      have htt_chain := chain'_takeThrough _ s fsts hchain
      have htt_last := takeThrough_getLast s fsts hmem
      have htt_ne := takeThrough_ne_nil s fsts hmem
      have htt_head : (takeThrough s fsts).head? = some n := by
        rw [hfsts_head]
        exact takeThrough_head s n (rest.map Prod.fst)
      have hsn : s ∈ succs n :=
        hok.1 (n, s :: srest) (by simp) s (by simp)
      refine ⟨?_, ?_, ?_⟩
      · have : 1 ≤ (takeThrough s fsts).length :=
          List.length_pos.mpr htt_ne
        simp only [List.length_append, List.length_reverse,
          List.length_singleton]
        omega
      · have hhead : ((takeThrough s fsts).reverse ++ [s]).head? =
            some s := by
          cases hc : (takeThrough s fsts).reverse with
          | nil => simp [List.reverse_eq_nil_iff] at hc; exact absurd hc htt_ne
          | cons b bs =>
              have : (takeThrough s fsts).reverse.head? = some b := by
                rw [hc]; rfl
              rw [List.head?_reverse] at this
              rw [htt_last] at this
              injection this with hb
              simp [hc, hb]
        rw [hhead, List.getLast?_concat]
      · rw [List.chain'_append]
        refine ⟨?_, List.chain'_singleton s, ?_⟩
        · rw [List.chain'_reverse]
          have : (flip fun u v => v ∈ succs u) = fun u v => u ∈ succs v := by
            funext u v
            rfl
          rw [this]
          exact htt_chain
        · intro x hx y hy
          simp only [List.head?_cons, Option.mem_def] at hy
          rw [Option.mem_def, List.getLast?_reverse, htt_head] at hx
          injection hx with hx
          injection hy with hy
          subst hx
          subst hy
          exact hsn
  case case4 n s srest rest seen fin hstack hnmem hmem hstack2 ih =>
      rw [walkDFS] at hres
      rw [if_neg hnmem, dif_pos hmem] at hres
      exact ih hres (stackOK_shrink_top succs n s srest rest hok)
  case case5 n s srest rest seen fin hstack hnmem hmem hstack2 ih =>
      rw [walkDFS] at hres
      rw [if_neg hnmem, dif_neg hmem] at hres
      exact ih hres (stackOK_push succs n s srest rest hok)

theorem findCycleFrom_sound (succs : α → List α) (univ : List α)
    (hsucc : ∀ x, ∀ y ∈ succs x, y ∈ univ) :
    ∀ (nodes seen fin : List α) (c fin2 : List α),
      findCycleFrom succs univ hsucc nodes seen fin = (some c, fin2) →
      IsCycleVia succs c := by
  intro nodes
  induction nodes with
  | nil =>
      intro seen fin c fin2 h
      rw [findCycleFrom] at h
      simp at h
  | cons n rest ih =>
      intro seen fin c fin2 h
      rw [findCycleFrom] at h
      by_cases hn : n ∈ seen
      · rw [if_pos hn] at h
        exact ih _ _ _ _ h
      · rw [if_neg hn] at h
        split at h
        · rename_i c2 heq
          injection h with h1 h2
          injection h1 with h1
          subst h1
          refine walkDFS_sound succs univ hsucc _ _ _ _ c2 heq ?_
          constructor
          · intro p hp y hy
            have hp2 : p = (n, succs n) := by simpa using hp
            rw [hp2]
            rw [hp2] at hy
            exact hy
          · simp
        · rename_i seen2 fin2b heq
          exact ih _ _ _ _ h

theorem stackExam_mono (succs : α → List α) (fin fin2 above above2 : List α)
    (h : ∀ y, (y ∈ fin ∨ y ∈ above) → (y ∈ fin2 ∨ y ∈ above2)) :
    ∀ st, StackExam succs fin above st → StackExam succs fin2 above2 st := by
  intro st
  induction st generalizing above above2 with
  | nil => intro hse; exact trivial
  | cons fr rest ih =>
      intro hse
      obtain ⟨n, rem⟩ := fr
      obtain ⟨h1, h2⟩ := hse
      constructor
      · intro y hy
        rcases h1 y hy with h3 | h3 | h3
        · exact Or.inl h3
        · rcases h y (Or.inl h3) with h4 | h4
          · exact Or.inr (Or.inl h4)
          · exact Or.inr (Or.inr h4)
        · rcases h y (Or.inr h3) with h4 | h4
          · exact Or.inr (Or.inl h4)
          · exact Or.inr (Or.inr h4)
      · refine ih (above ++ [n]) (above2 ++ [n]) ?_ h2
        intro y hy
        rcases hy with h3 | h3
        · rcases h y (Or.inl h3) with h4 | h4
          · exact Or.inl h4
          · exact Or.inr (by simp [h4])
        · rcases List.mem_append.mp h3 with h4 | h4
          · rcases h y (Or.inr h4) with h5 | h5
            · exact Or.inl h5
            · exact Or.inr (by simp [h5])
          · exact Or.inr (by simp at h4; simp [h4])

theorem finClosed_cons (succs : α → List α) (fin : List α) (n : α)
    (h : FinClosed succs fin) (hn : ∀ y ∈ succs n, y ∈ fin) :
    FinClosed succs (n :: fin) := by
  intro l1 x l2 heq y hy
  cases l1 with
  | nil =>
      simp at heq
      obtain ⟨h1, h2⟩ := heq
      subst h1
      subst h2
      exact hn y hy
  | cons a l1' =>
      simp at heq
      obtain ⟨h1, h2⟩ := heq
      exact h l1' x l2 h2 y hy

theorem walkDFS_inr_inv (succs : α → List α) (univ : List α)
    (hsucc : ∀ x, ∀ y ∈ succs x, y ∈ univ) :
    ∀ (stack : List (α × List α)) (seen fin : List α)
      (hstack : ∀ p ∈ stack, ∀ y ∈ p.2, y ∈ univ) (seen2 fin2 : List α),
      walkDFS succs univ hsucc stack seen fin hstack = .inr (seen2, fin2) →
      WalkInv succs stack seen fin →
      WalkInv succs [] seen2 fin2 ∧ (∀ x ∈ seen, x ∈ seen2) := by
  intro stack seen fin hstack seen2 fin2 hres hinv
  induction stack, seen, fin, hstack using walkDFS.induct succs univ hsucc
  case case1 seen fin hstack =>
      rw [walkDFS] at hres
      injection hres with hres
      injection hres with h1 h2
      subst h1
      subst h2
      exact ⟨hinv, fun x hx => hx⟩
  case case2 n rest seen fin hstack hstack2 ih =>
      rw [walkDFS] at hres
      obtain ⟨I1, I2, I3, I4, I5, I6, I7, I8⟩ := hinv
      simp only [List.map_cons] at I1 I2 I4 I6
      have hn_fsts : (n : α) ∈ ((n, ([] : List α)) :: rest).map Prod.fst := by
        simp
      refine ih hres ⟨?_, ?_, ?_, ?_, ?_, ?_, ?_, ?_⟩
      · intro x hx
        rcases I1 x hx with h1 | h1
        · rcases List.mem_cons.mp h1 with h2 | h2
          · exact Or.inr (by simp [h2])
          · exact Or.inl h2
        · exact Or.inr (by simp [h1])
      · intro x hx
        exact I2 x (by simp [hx])
      · intro x hx
        rcases List.mem_cons.mp hx with h1 | h1
        · exact I2 x (by simp [h1])
        · exact I3 x h1
      · exact I4.of_cons
      · exact List.Nodup.cons (I6 n (by simp)) I5
      · intro x hx
        intro hc
        rcases List.mem_cons.mp hc with h1 | h1
        · exact (List.nodup_cons.mp I4).1 (h1 ▸ hx)
        · exact I6 x (by simp [hx]) h1
      · refine finClosed_cons succs fin n I7 ?_
        intro y hy
        obtain ⟨h1, -⟩ := I8
        rcases h1 y hy with h2 | h2 | h2
        · simp at h2
        · exact h2
        · simp at h2
      · obtain ⟨-, h2⟩ := I8
        refine stackExam_mono succs fin (n :: fin) ([] ++ [n]) [] ?_ rest h2
        intro y hy
        rcases hy with h3 | h3
        · exact Or.inl (by simp [h3])
        · simp at h3
          exact Or.inl (by simp [h3])
  case case3 n s srest rest seen fin hstack hmem hstack2 =>
      rw [walkDFS] at hres
      rw [if_pos hmem] at hres
      cases hres
  case case4 n s srest rest seen fin hstack hnmem hmem hstack2 ih =>
      rw [walkDFS] at hres
      rw [if_neg hnmem, dif_pos hmem] at hres
      obtain ⟨I1, I2, I3, I4, I5, I6, I7, I8⟩ := hinv
      have hfst : ((n, s :: srest) :: rest).map Prod.fst =
          ((n, srest) :: rest).map Prod.fst := by simp
      have hs_fin : s ∈ fin := by
        rcases I1 s hmem with h1 | h1
        · rw [hfst] at h1
          exact absurd h1 hnmem
        · exact h1
      refine ih hres ⟨?_, ?_, ?_, ?_, ?_, ?_, I7, ?_⟩
      · intro x hx
        rcases I1 x hx with h1 | h1
        · exact Or.inl (hfst ▸ h1)
        · exact Or.inr h1
      · intro x hx
        exact I2 x (hfst ▸ hx)
      · exact I3
      · exact hfst ▸ I4
      · exact I5
      · intro x hx
        exact I6 x (hfst ▸ hx)
      · obtain ⟨h1, h2⟩ := I8
        constructor
        · intro y hy
          rcases h1 y hy with h3 | h3 | h3
          · rcases List.mem_cons.mp h3 with h4 | h4
            · exact Or.inr (Or.inl (h4 ▸ hs_fin))
            · exact Or.inl h4
          · exact Or.inr (Or.inl h3)
          · simp at h3
        · exact h2
  case case5 n s srest rest seen fin hstack hnmem hmem hstack2 ih =>
      rw [walkDFS] at hres
      rw [if_neg hnmem, dif_neg hmem] at hres
      obtain ⟨I1, I2, I3, I4, I5, I6, I7, I8⟩ := hinv
      have hfst : ((n, s :: srest) :: rest).map Prod.fst =
          ((n, srest) :: rest).map Prod.fst := by simp
      have hs_not_fin : s ∉ fin := fun hc => hmem (I3 s hc)
      have hnew : WalkInv succs ((s, succs s) :: (n, srest) :: rest)
          (s :: seen) fin := by
        refine ⟨?_, ?_, ?_, ?_, ?_, ?_, I7, ?_⟩
        · intro x hx
          rcases List.mem_cons.mp hx with h1 | h1
          · exact Or.inl (by simp [h1])
          · rcases I1 x h1 with h2 | h2
            · exact Or.inl (by
                rw [hfst] at h2
                simp only [List.map_cons]
                exact List.mem_cons_of_mem _ h2)
            · exact Or.inr h2
        · intro x hx
          simp only [List.map_cons] at hx
          rcases List.mem_cons.mp hx with h1 | h1
          · exact (by simp [h1] : x ∈ s :: seen)
          · refine List.mem_cons_of_mem s ?_
            exact I2 x (hfst ▸ (by simp [h1]))
        · intro x hx
          exact List.mem_cons_of_mem s (I3 x hx)
        · have hI4 : (((n, srest) :: rest).map Prod.fst).Nodup := by
            rw [← hfst]
            exact I4
          simp only [List.map_cons]
          refine List.Nodup.cons ?_ (by simpa using hI4)
          intro hc
          rcases List.mem_cons.mp hc with h1 | h1
          · exact hmem (I2 s (by simp [h1]))
          · exact hnmem (by simp [h1])
        · exact I5
        · intro x hx
          simp only [List.map_cons] at hx
          rcases List.mem_cons.mp hx with h1 | h1
          · exact h1 ▸ hs_not_fin
          · exact I6 x (hfst ▸ (by simp [h1]))
        · obtain ⟨h1, h2⟩ := I8
          constructor
          · intro y hy
            exact Or.inl hy
          · constructor
            · intro y hy
              rcases h1 y hy with h3 | h3 | h3
              · rcases List.mem_cons.mp h3 with h4 | h4
                · exact Or.inr (Or.inr (by simp [h4]))
                · exact Or.inl h4
              · exact Or.inr (Or.inl h3)
              · simp at h3
            · refine stackExam_mono succs fin fin ([] ++ [n])
                (([] ++ [s]) ++ [n]) ?_ rest h2
              intro y hy
              rcases hy with h3 | h3
              · exact Or.inl h3
              · exact Or.inr (by simp at h3; simp [h3])
      obtain ⟨hinv2, hgrow⟩ := ih hres hnew
      exact ⟨hinv2, fun x hx => hgrow x (by simp [hx])⟩

theorem findCycleFrom_none (succs : α → List α) (univ : List α)
    (hsucc : ∀ x, ∀ y ∈ succs x, y ∈ univ) :
    ∀ (nodes seen fin fin2 : List α),
      findCycleFrom succs univ hsucc nodes seen fin = (none, fin2) →
      WalkInv succs [] seen fin →
      ∃ seen2, WalkInv succs [] seen2 fin2 ∧
        (∀ x ∈ seen, x ∈ seen2) ∧ (∀ x ∈ nodes, x ∈ seen2) := by
  intro nodes
  induction nodes with
  | nil =>
      intro seen fin fin2 h hinv
      rw [findCycleFrom] at h
      injection h with h1 h2
      subst h2
      exact ⟨seen, hinv, fun x hx => hx, by simp⟩
  | cons n rest ih =>
      intro seen fin fin2 h hinv
      rw [findCycleFrom] at h
      by_cases hn : n ∈ seen
      · rw [if_pos hn] at h
        obtain ⟨seen2, hinv2, hsub, hnodes⟩ := ih seen fin fin2 h hinv
        refine ⟨seen2, hinv2, hsub, ?_⟩
        intro x hx
        rcases List.mem_cons.mp hx with h1 | h1
        · exact hsub x (h1 ▸ hn)
        · exact hnodes x h1
      · rw [if_neg hn] at h
        split at h
        · rename_i c2 heq
          cases h
        · rename_i s2 f2 heq
          obtain ⟨I1, I2, I3, I4, I5, I6, I7, I8⟩ := hinv
          have hstart : WalkInv succs [(n, succs n)] (n :: seen) fin := by
            refine ⟨?_, ?_, ?_, ?_, I5, ?_, I7, ?_⟩
            · intro x hx
              rcases List.mem_cons.mp hx with h1 | h1
              · exact Or.inl (by simp [h1])
              · rcases I1 x h1 with h2 | h2
                · simp at h2
                · exact Or.inr h2
            · intro x hx
              simp at hx
              simp [hx]
            · intro x hx
              exact List.mem_cons_of_mem n (I3 x hx)
            · simp
            · intro x hx
              simp at hx
              subst hx
              intro hc
              exact hn (I3 x hc)
            · exact ⟨fun y hy => Or.inl hy, trivial⟩
          obtain ⟨hinv2, hgrow⟩ :=
            walkDFS_inr_inv succs univ hsucc _ _ _ _ s2 f2 heq hstart
          obtain ⟨seen3, hinv3, hsub3, hnodes3⟩ := ih s2 f2 fin2 h hinv2
          refine ⟨seen3, hinv3, ?_, ?_⟩
          · intro x hx
            exact hsub3 x (hgrow x (by simp [hx]))
          · intro x hx
            rcases List.mem_cons.mp hx with h1 | h1
            · exact hsub3 x (hgrow x (by simp [h1]))
            · exact hnodes3 x h1

theorem chain'_pred_of_mem_tail (R : α → α → Prop) :
    ∀ (a : α) (l : List α), List.Chain' R (a :: l) →
      ∀ e ∈ l, ∃ x ∈ a :: l, R x e := by
  intro a l
  induction l generalizing a with
  | nil => intro _ e he; simp at he
  | cons b l2 ih =>
      intro h e he
      obtain ⟨hab, htail⟩ := List.chain'_cons.mp h
      rcases List.mem_cons.mp he with h1 | h1
      · exact ⟨a, by simp, h1 ▸ hab⟩
      · obtain ⟨x, hx, hr⟩ := ih b htail e h1
        exact ⟨x, List.mem_cons_of_mem a hx, hr⟩

theorem cycle_mem_has_pred (succs : α → List α) (c : List α)
    (hc : IsCycleVia succs c) : ∀ e ∈ c, ∃ x ∈ c, e ∈ succs x := by
  obtain ⟨hlen, hhl, hchain⟩ := hc
  intro e he
  match c, hlen, hhl, hchain, he with
  | c0 :: c1 :: cr, _, hhl, hchain, he =>
      rcases List.mem_cons.mp he with h1 | h1
      · have hlast : (c1 :: cr).getLast? = some c0 := by
          rw [List.getLast?_cons_cons] at hhl
          simp at hhl
          exact hhl.symm
        have hc0mem : c0 ∈ c1 :: cr := by
          obtain ⟨hne, hgl⟩ := List.mem_getLast?_eq_getLast
            (show c0 ∈ (c1 :: cr).getLast? from by rw [hlast]; rfl)
          rw [hgl]
          exact List.getLast_mem hne
        obtain ⟨x, hx, hr⟩ :=
          chain'_pred_of_mem_tail (fun u v => v ∈ succs u) c0 (c1 :: cr)
            hchain c0 hc0mem
        exact ⟨x, hx, h1 ▸ hr⟩
      · exact chain'_pred_of_mem_tail (fun u v => v ∈ succs u) c0
          (c1 :: cr) hchain e h1

theorem no_cycle_in_fin (succs : α → List α) :
    ∀ fin : List α, fin.Nodup → FinClosed succs fin →
      ∀ c, IsCycleVia succs c → (∀ x ∈ c, x ∈ fin) → False := by
  intro fin
  induction fin with
  | nil =>
      intro _ _ c hc hsub
      obtain ⟨hlen, -, -⟩ := hc
      match c, hlen with
      | c0 :: cr, _ => exact absurd (hsub c0 (by simp)) (by simp)
  | cons f fin2 ih =>
      intro hnd hfc c hc hsub
      by_cases hf : f ∈ c
      · obtain ⟨x, hx, hedge⟩ := cycle_mem_has_pred succs c hc f hf
        rcases List.mem_cons.mp (hsub x hx) with h1 | h1
        · have hmem := hfc [] f fin2 rfl f (by rw [← h1] at hedge ⊢; exact hedge)
          exact (List.nodup_cons.mp hnd).1 hmem
        · obtain ⟨l1, l2, hsplit⟩ := List.append_of_mem h1
          have hmem := hfc (f :: l1) x l2 (by rw [hsplit]; rfl) f hedge
          apply (List.nodup_cons.mp hnd).1
          rw [hsplit]
          exact List.mem_append.mpr (Or.inr (by simp [hmem]))
      · refine ih (List.nodup_cons.mp hnd).2 ?_ c hc ?_
        · intro l1 x l2 heq y hy
          exact hfc (f :: l1) x l2 (by rw [heq]; rfl) y hy
        · intro x hx
          rcases List.mem_cons.mp (hsub x hx) with h1 | h1
          · exact absurd (h1 ▸ hx) hf
          · exact h1

theorem cycle_mem_univ (succs : α → List α) (univ : List α)
    (hsucc : ∀ x, ∀ y ∈ succs x, y ∈ univ) (c : List α)
    (hc : IsCycleVia succs c) : ∀ e ∈ c, e ∈ univ := by
  intro e he
  obtain ⟨x, -, hr⟩ := cycle_mem_has_pred succs c hc e he
  exact hsucc x e hr

theorem ts_findCycle_none_no_cycle (s : TS α) (r : Option (List α))
    (fin : List α) (heq : s.findCycle = (r, fin)) (hr : r = none) :
    ∀ c, IsCycleVia
      (fun x => (s.succs x).filter (fun y => y ∈ s.order)) c → False := by
  subst hr
  intro c hc
  rw [TS.findCycle] at heq
  have hfs : ∀ x, ∀ y ∈ (fun x => (s.succs x).filter
      (fun y => y ∈ s.order)) x, y ∈ s.order := by
    intro x y hy
    simp only [List.mem_filter] at hy
    exact of_decide_eq_true hy.2
  have hinv0 : WalkInv (fun x => (s.succs x).filter
      (fun y => y ∈ s.order)) [] [] [] := by
    refine ⟨?_, ?_, ?_, ?_, ?_, ?_, ?_, trivial⟩ <;>
      first
        | (intro x hx; simp at hx)
        | simp
        | (intro l1 x l2 hsplit; simp at hsplit)
  obtain ⟨seen2, hinv2, -, hall⟩ :=
    findCycleFrom_none _ s.order _ s.order [] [] fin heq hinv0
  obtain ⟨I1, -, -, -, I5, -, I7, -⟩ := hinv2
  refine no_cycle_in_fin _ fin I5 I7 c hc ?_
  intro x hx
  have hx_univ : x ∈ s.order :=
    cycle_mem_univ _ s.order hfs c hc x hx
  rcases I1 x (hall x hx_univ) with h1 | h1
  · simp at h1
  · exact h1

theorem register_succs_eq (s : TS α) (n : α) :
    (s.register n).succs = s.succs := by
  rw [TS.register]
  by_cases h : n ∈ s.order <;> simp [h]

theorem register_mem_order (s : TS α) (n x : α) :
    x ∈ (s.register n).order ↔ x ∈ s.order ∨ x = n := by
  rw [TS.register]
  by_cases h : n ∈ s.order
  · simp only [if_pos h]
    constructor
    · exact fun hx => Or.inl hx
    · intro hx
      rcases hx with h1 | h1
      · exact h1
      · exact h1 ▸ h
  · simp [h, or_comm]

theorem addPredFold_succs (node : α) :
    ∀ (preds : List α) (acc : TS α) (x y : α),
      y ∈ (preds.foldl (fun a p =>
        let a1 := a.register p
        { a1 with succs := fun z =>
            if z = p then a1.succs p ++ [node] else a1.succs z }) acc).succs x ↔
      (y ∈ acc.succs x ∨ (y = node ∧ x ∈ preds)) := by
  intro preds
  induction preds with
  | nil => intro acc x y; simp
  | cons p ps ih =>
      intro acc x y
      rw [List.foldl_cons]
      rw [ih]
      simp only [register_succs_eq]
      by_cases hx : x = p
      · subst hx
        simp [List.mem_append, List.mem_cons]
        tauto
      · simp [if_neg hx, List.mem_cons]
        constructor
        · rintro (h1 | h1)
          · exact Or.inl h1
          · exact Or.inr ⟨h1.1, Or.inr h1.2⟩
        · rintro (h1 | ⟨h1, h2⟩)
          · exact Or.inl h1
          · rcases h2 with h2 | h2
            · exact absurd h2 hx
            · exact Or.inr ⟨h1, h2⟩

theorem addPredFold_order (node : α) :
    ∀ (preds : List α) (acc : TS α) (x : α),
      x ∈ (preds.foldl (fun a p =>
        let a1 := a.register p
        { a1 with succs := fun z =>
            if z = p then a1.succs p ++ [node] else a1.succs z }) acc).order ↔
      (x ∈ acc.order ∨ x ∈ preds) := by
  intro preds
  induction preds with
  | nil => intro acc x; simp
  | cons p ps ih =>
      intro acc x
      rw [List.foldl_cons]
      rw [ih]
      simp only [register_mem_order, List.mem_cons]
      constructor
      · rintro (⟨h1 | h1⟩ | h1)
        · exact Or.inl h1
        · exact Or.inr (Or.inl h1)
        · exact Or.inr (Or.inr h1)
      · rintro (h1 | h1 | h1)
        · exact Or.inl (Or.inl h1)
        · exact Or.inl (Or.inr h1)
        · exact Or.inr h1

theorem add_succs_mem (s : TS α) (node : α) (preds : List α)
    (x y : α) :
    y ∈ (s.add node preds).succs x ↔
      (y ∈ s.succs x ∨ (y = node ∧ x ∈ preds)) := by
  rw [TS.add]
  rw [addPredFold_succs]
  simp [register_succs_eq]

theorem add_mem_order (s : TS α) (node : α) (preds : List α) (x : α) :
    x ∈ (s.add node preds).order ↔
      (x ∈ s.order ∨ x = node ∨ x ∈ preds) := by
  rw [TS.add]
  rw [addPredFold_order]
  simp [register_mem_order]
  tauto

end Graphlib

open Graphlib

theorem buildGraph_succs_mem (dn : List (String × TargetDocument))
    (u v : String) :
    v ∈ (buildGraph dn).succs u ↔ DocEdge dn u v := by
  have hgen : ∀ (l : List (String × TargetDocument)) (s0 : TS String)
      (u v : String),
      v ∈ (l.foldl (fun s kv =>
        s.add kv.1 kv.2.target.dependencies) s0).succs u ↔
      (v ∈ s0.succs u ∨
        ∃ doc, (v, doc) ∈ l ∧ u ∈ doc.target.dependencies) := by
    intro l
    induction l with
    | nil => intro s0 u v; simp
    | cons kv rest ih =>
        intro s0 u v
        rw [List.foldl_cons, ih, add_succs_mem]
        constructor
        · rintro (⟨h1 | ⟨h1, h2⟩⟩ | ⟨doc, hd1, hd2⟩)
          · exact Or.inl h1
          · refine Or.inr ⟨kv.2, ?_, h2⟩
            rw [List.mem_cons]
            refine Or.inl ?_
            rw [h1]
          · exact Or.inr ⟨doc, by simp [hd1], hd2⟩
        · rintro (h1 | ⟨doc, hd1, hd2⟩)
          · exact Or.inl (Or.inl h1)
          · rcases List.mem_cons.mp hd1 with h2 | h2
            · have hv : v = kv.1 := by
                have := congrArg Prod.fst h2
                simpa using this
              have hdoc : doc = kv.2 := by
                have := congrArg Prod.snd h2
                simpa using this
              exact Or.inl (Or.inr ⟨hv, hdoc ▸ hd2⟩)
            · exact Or.inr ⟨doc, h2, hd2⟩
  rw [buildGraph, hgen]
  simp only [TS.empty]
  rw [DocEdge]
  simp

theorem buildGraph_mem_order (dn : List (String × TargetDocument))
    (x : String) :
    x ∈ (buildGraph dn).order ↔
      ∃ kv ∈ dn, x = kv.1 ∨ x ∈ kv.2.target.dependencies := by
  have hgen : ∀ (l : List (String × TargetDocument)) (s0 : TS String)
      (x : String),
      x ∈ (l.foldl (fun s kv =>
        s.add kv.1 kv.2.target.dependencies) s0).order ↔
      (x ∈ s0.order ∨
        ∃ kv ∈ l, x = kv.1 ∨ x ∈ kv.2.target.dependencies) := by
    intro l
    induction l with
    | nil => intro s0 x; simp
    | cons kv rest ih =>
        intro s0 x
        rw [List.foldl_cons, ih, add_mem_order]
        constructor
        · rintro (⟨h1 | h1 | h1⟩ | ⟨kv2, h2, h3⟩)
          · exact Or.inl h1
          · exact Or.inr ⟨kv, by simp, Or.inl h1⟩
          · exact Or.inr ⟨kv, by simp, Or.inr h1⟩
          · exact Or.inr ⟨kv2, by simp [h2], h3⟩
        · rintro (h1 | ⟨kv2, h2, h3⟩)
          · exact Or.inl (Or.inl h1)
          · rcases List.mem_cons.mp h2 with h4 | h4
            · subst h4
              rcases h3 with h3 | h3
              · exact Or.inl (Or.inr (Or.inl h3))
              · exact Or.inl (Or.inr (Or.inr h3))
            · exact Or.inr ⟨kv2, h4, h3⟩
  rw [buildGraph, hgen]
  simp [TS.empty]

theorem buildGraph_edge_in_order (dn : List (String × TargetDocument))
    (u v : String) (h : v ∈ (buildGraph dn).succs u) :
    v ∈ (buildGraph dn).order := by
  rw [buildGraph_succs_mem] at h
  obtain ⟨doc, h1, -⟩ := h
  rw [buildGraph_mem_order]
  exact ⟨(v, doc), h1, Or.inl rfl⟩

theorem buildGraph_filtered_succs (dn : List (String × TargetDocument))
    (u v : String) :
    v ∈ ((buildGraph dn).succs u).filter
        (fun y => y ∈ (buildGraph dn).order) ↔
      v ∈ (buildGraph dn).succs u := by
  rw [List.mem_filter]
  constructor
  · exact fun h => h.1
  · intro h
    exact ⟨h, decide_eq_true (buildGraph_edge_in_order dn u v h)⟩

theorem buildGraph_cycle_iff (dn : List (String × TargetDocument))
    (c : List String) :
    IsCycleVia ((buildGraph dn).succs) c ↔ DocCycle dn c := by
  constructor
  · rintro ⟨h1, h2, h3⟩
    refine ⟨h1, h2, ?_⟩
    refine List.Chain'.imp ?_ h3
    intro a b hab
    exact (buildGraph_succs_mem dn a b).mp hab
  · rintro ⟨h1, h2, h3⟩
    refine ⟨h1, h2, ?_⟩
    refine List.Chain'.imp ?_ h3
    intro a b hab
    exact (buildGraph_succs_mem dn a b).mpr hab

theorem buildGraph_cycle_iff_filtered
    (dn : List (String × TargetDocument)) (c : List String) :
    IsCycleVia (fun x => ((buildGraph dn).succs x).filter
        (fun y => y ∈ (buildGraph dn).order)) c ↔ DocCycle dn c := by
  rw [← buildGraph_cycle_iff]
  constructor
  · rintro ⟨h1, h2, h3⟩
    refine ⟨h1, h2, List.Chain'.imp ?_ h3⟩
    intro a b hab
    exact (buildGraph_filtered_succs dn a b).mp hab
  · rintro ⟨h1, h2, h3⟩
    refine ⟨h1, h2, List.Chain'.imp ?_ h3⟩
    intro a b hab
    exact (buildGraph_filtered_succs dn a b).mpr hab

theorem prepareReady_succs (s : TS String) :
    s.prepareReady.succs = s.succs := rfl

theorem prepareReady_order (s : TS String) :
    s.prepareReady.order = s.order := rfl

/-- C7: if the name-level dependency relation of the (named) documents
contains a cycle, _build_target_definitions fails with a
RegistryFailed whose cause is DependencyCycle and whose additional
context is a genuine cycle path of that relation joined by the arrow
separator; and for an acyclic document set no DependencyCycle failure
is ever produced (the only other outcomes are the constructed
definitions or a propagated KeyError). -/
theorem c7_dependency_cycle_detection (docs : List TargetDocument) :
    ((∃ c, DocCycle (documentsNamed docs) c) →
      ∃ cyc, DocCycle (documentsNamed docs) cyc ∧
        buildTargetDefinitions docs =
          .ok (.inl ⟨.dependencyCycle,
            some (String.intercalate " -> " cyc)⟩)) ∧
    ((∀ c, ¬ DocCycle (documentsNamed docs) c) →
      ∀ ctx, buildTargetDefinitions docs ≠
        .ok (.inl ⟨.dependencyCycle, ctx⟩)) := by
  rcases hfc : (buildGraph (documentsNamed docs)).prepareReady.findCycle
    with ⟨r, fin⟩
  cases r with
  | some cyc =>
      have hsound : IsCycleVia
          (fun x => (((buildGraph (documentsNamed docs)).prepareReady.succs) x).filter
            (fun y => y ∈ (buildGraph (documentsNamed docs)).prepareReady.order))
          cyc := by
        rw [TS.findCycle] at hfc
        exact findCycleFrom_sound _ _ _ _ _ _ cyc fin hfc
      have hdc : DocCycle (documentsNamed docs) cyc := by
        rw [prepareReady_succs, prepareReady_order] at hsound
        exact (buildGraph_cycle_iff_filtered (documentsNamed docs)
          cyc).mp hsound
      have hval : buildTargetDefinitions docs =
          .ok (.inl ⟨.dependencyCycle,
            some (String.intercalate " -> " cyc)⟩) := by
        rw [buildTargetDefinitions]
        simp only [hfc]
      constructor
      · intro _
        exact ⟨cyc, hdc, hval⟩
      · intro hno ctx
        exact absurd hdc (hno cyc)
  | none =>
      have hnocyc : ∀ c, ¬ DocCycle (documentsNamed docs) c := by
        intro c hc
        refine ts_findCycle_none_no_cycle
          (buildGraph (documentsNamed docs)).prepareReady none fin hfc rfl
          c ?_
        rw [prepareReady_succs, prepareReady_order]
        exact (buildGraph_cycle_iff_filtered (documentsNamed docs) c).mpr hc
      constructor
      · intro hex
        obtain ⟨c, hc⟩ := hex
        exact absurd hc (hnocyc c)
      · intro _ ctx
        rw [buildTargetDefinitions]
        simp only [hfc]
        cases hbl : buildLoop (documentsNamed docs)
          ((buildGraph (documentsNamed docs)).prepareReady.order.length + 1)
          (buildGraph (documentsNamed docs)).prepareReady [] with
        | error e => simp [hbl]
        | ok m => simp [hbl]

/-- C7 witness: the cycle theorem applied to the three-target cycle
x -> y -> z -> x, with its cycle hypothesis discharged concretely. -/
theorem c7_witness :
    ∃ cyc, DocCycle (documentsNamed
      [⟨["p", "x.toml"], ["p"], ⟨none, ["y"]⟩⟩,
       ⟨["p", "y.toml"], ["p"], ⟨none, ["z"]⟩⟩,
       ⟨["p", "z.toml"], ["p"], ⟨none, ["x"]⟩⟩]) cyc ∧
    buildTargetDefinitions
      [⟨["p", "x.toml"], ["p"], ⟨none, ["y"]⟩⟩,
       ⟨["p", "y.toml"], ["p"], ⟨none, ["z"]⟩⟩,
       ⟨["p", "z.toml"], ["p"], ⟨none, ["x"]⟩⟩] =
      .ok (.inl ⟨.dependencyCycle,
        some (String.intercalate " -> " cyc)⟩) := by
  apply (c7_dependency_cycle_detection
    [⟨["p", "x.toml"], ["p"], ⟨none, ["y"]⟩⟩,
     ⟨["p", "y.toml"], ["p"], ⟨none, ["z"]⟩⟩,
     ⟨["p", "z.toml"], ["p"], ⟨none, ["x"]⟩⟩]).1
  refine ⟨["x", "z", "y", "x"], by decide, by decide, ?_⟩
  refine List.chain'_cons.mpr ⟨⟨⟨["p", "z.toml"], ["p"], ⟨none, ["x"]⟩⟩,
    by decide, by decide⟩, ?_⟩
  refine List.chain'_cons.mpr ⟨⟨⟨["p", "y.toml"], ["p"], ⟨none, ["z"]⟩⟩,
    by decide, by decide⟩, ?_⟩
  exact List.chain'_cons.mpr ⟨⟨⟨["p", "x.toml"], ["p"], ⟨none, ["y"]⟩⟩,
    by decide, by decide⟩, List.chain'_singleton "x"⟩

namespace Graphlib

variable {α : Type} [DecidableEq α]

theorem add_npred (s : TS α) (node : α) (preds : List α) (x : α) :
    (s.add node preds).npred x =
      if x = node then s.npred node + preds.length else s.npred x := by
  rw [TS.add]
  have hfold : ∀ (l : List α) (acc : TS α),
      (l.foldl (fun a p =>
        let a1 := a.register p
        { a1 with succs := fun z =>
            if z = p then a1.succs p ++ [node] else a1.succs z }) acc).npred =
      acc.npred := by
    intro l
    induction l with
    | nil => intro acc; rfl
    | cons p ps ih =>
        intro acc
        rw [List.foldl_cons, ih]
        rw [TS.register]
        by_cases h : p ∈ acc.order <;> simp [h]
  rw [hfold]
  rw [TS.register]
  by_cases h : node ∈ s.order <;> simp [h]

theorem foldDec_npred :
    ∀ (l : List α) (acc : TS α) (x : α),
      (l.foldl (fun a u =>
        let newv := a.npred u - 1
        { a with
          npred := fun z => if z = u then newv else a.npred z,
          ready := if newv = 0 then a.ready ++ [u] else a.ready }) acc).npred x =
      acc.npred x - (l.count x : Int) := by
  intro l
  induction l with
  | nil => intro acc x; simp
  | cons u us ih =>
      intro acc x
      rw [List.foldl_cons, ih]
      by_cases hx : x = u
      · subst hx
        simp [List.count_cons]
        omega
      · simp only [if_neg hx]
        rw [List.count_cons, if_neg (by
          intro hc
          exact hx (beq_iff_eq.mp hc).symm)]
        simp

theorem doneOne_npred (s : TS α) (node x : α) :
    (s.doneOne node).npred x =
      (if x = node then -2 else s.npred x) -
        ((s.succs node).count x : Int) := by
  simp only [TS.doneOne]
  rw [foldDec_npred]

theorem foldDec_succs :
    ∀ (l : List α) (acc : TS α),
      (l.foldl (fun a u =>
        let newv := a.npred u - 1
        { a with
          npred := fun z => if z = u then newv else a.npred z,
          ready := if newv = 0 then a.ready ++ [u] else a.ready }) acc).succs =
      acc.succs := by
  intro l
  induction l with
  | nil => intro acc; rfl
  | cons u us ih =>
      intro acc
      rw [List.foldl_cons, ih]

theorem foldDec_order :
    ∀ (l : List α) (acc : TS α),
      (l.foldl (fun a u =>
        let newv := a.npred u - 1
        { a with
          npred := fun z => if z = u then newv else a.npred z,
          ready := if newv = 0 then a.ready ++ [u] else a.ready }) acc).order =
      acc.order := by
  intro l
  induction l with
  | nil => intro acc; rfl
  | cons u us ih =>
      intro acc
      rw [List.foldl_cons, ih]

theorem foldDec_counts :
    ∀ (l : List α) (acc : TS α),
      (l.foldl (fun a u =>
        let newv := a.npred u - 1
        { a with
          npred := fun z => if z = u then newv else a.npred z,
          ready := if newv = 0 then a.ready ++ [u] else a.ready }) acc).npassedout =
        acc.npassedout ∧
      (l.foldl (fun a u =>
        let newv := a.npred u - 1
        { a with
          npred := fun z => if z = u then newv else a.npred z,
          ready := if newv = 0 then a.ready ++ [u] else a.ready }) acc).nfinished =
        acc.nfinished := by
  intro l
  induction l with
  | nil => intro acc; exact ⟨rfl, rfl⟩
  | cons u us ih =>
      intro acc
      rw [List.foldl_cons]
      exact ih _

theorem doneOne_succs (s : TS α) (node : α) :
    (s.doneOne node).succs = s.succs := by
  simp only [TS.doneOne]
  rw [foldDec_succs]

theorem doneOne_order (s : TS α) (node : α) :
    (s.doneOne node).order = s.order := by
  simp only [TS.doneOne]
  rw [foldDec_order]

theorem doneOne_npassedout (s : TS α) (node : α) :
    (s.doneOne node).npassedout = s.npassedout := by
  simp only [TS.doneOne]
  exact (foldDec_counts (s.succs node) _).1

theorem doneOne_nfinished (s : TS α) (node : α) :
    (s.doneOne node).nfinished = s.nfinished + 1 := by
  simp only [TS.doneOne]
  rw [(foldDec_counts (s.succs node) _).2]

theorem getReady_fields (s : TS α) :
    (s.getReady).1 = s.ready ∧
    (s.getReady).2.ready = [] ∧
    (s.getReady).2.npassedout = s.npassedout + s.ready.length ∧
    (s.getReady).2.nfinished = s.nfinished ∧
    (s.getReady).2.succs = s.succs ∧
    (s.getReady).2.order = s.order ∧
    (s.getReady).2.npred =
      fun x => if x ∈ s.ready then -1 else s.npred x := by
  refine ⟨rfl, rfl, rfl, rfl, rfl, rfl, rfl⟩

theorem addPredFold_succs_count (node : α) :
    ∀ (preds : List α) (acc : TS α) (x y : α),
      ((preds.foldl (fun a p =>
        let a1 := a.register p
        { a1 with succs := fun z =>
            if z = p then a1.succs p ++ [node] else a1.succs z }) acc).succs x).count y =
      (acc.succs x).count y + (if y = node then preds.count x else 0) := by
  intro preds
  induction preds with
  | nil => intro acc x y; simp
  | cons p ps ih =>
      intro acc x y
      rw [List.foldl_cons, ih]
      simp only [register_succs_eq]
      by_cases hx : x = p
      · subst hx
        simp only [if_pos rfl, List.count_append]
        by_cases hy : y = node
        · subst hy
          simp [List.count_cons, List.count_singleton]
          omega
        · have h0 : List.count y [node] = 0 := by
            simp [List.count_singleton', beq_iff_eq]
            intro hc
            exact absurd hc.symm hy
          simp [if_neg hy, h0]
      · have hcc : (p :: ps).count x = ps.count x := by
          simp [List.count_cons, beq_iff_eq]
          intro hc
          exact absurd hc.symm hx
        simp only [if_neg hx, hcc]

theorem add_succs_count (s : TS α) (node : α) (preds : List α) (x y : α) :
    ((s.add node preds).succs x).count y =
      (s.succs x).count y + (if y = node then preds.count x else 0) := by
  rw [TS.add]
  rw [addPredFold_succs_count]
  simp [register_succs_eq]

theorem register_ready (s : TS α) (n : α) :
    (s.register n).ready = s.ready := by
  rw [TS.register]; by_cases h : n ∈ s.order <;> simp [h]

theorem register_counts (s : TS α) (n : α) :
    (s.register n).npassedout = s.npassedout ∧
    (s.register n).nfinished = s.nfinished := by
  rw [TS.register]; by_cases h : n ∈ s.order <;> simp [h]

theorem register_order_nodup (s : TS α) (n : α) (h : s.order.Nodup) :
    (s.register n).order.Nodup := by
  rw [TS.register]
  by_cases hm : n ∈ s.order
  · simpa [hm]
  · simp only [if_neg hm]
    simpa [List.nodup_append] using ⟨h, hm⟩

theorem addPredFold_ready (node : α) :
    ∀ (preds : List α) (acc : TS α),
      (preds.foldl (fun a p =>
        let a1 := a.register p
        { a1 with succs := fun z =>
            if z = p then a1.succs p ++ [node] else a1.succs z }) acc).ready =
      acc.ready := by
  intro preds
  induction preds with
  | nil => intro acc; rfl
  | cons p ps ih =>
      intro acc
      rw [List.foldl_cons, ih]
      exact register_ready _ _

theorem addPredFold_counts (node : α) :
    ∀ (preds : List α) (acc : TS α),
      (preds.foldl (fun a p =>
        let a1 := a.register p
        { a1 with succs := fun z =>
            if z = p then a1.succs p ++ [node] else a1.succs z }) acc).npassedout =
        acc.npassedout ∧
      (preds.foldl (fun a p =>
        let a1 := a.register p
        { a1 with succs := fun z =>
            if z = p then a1.succs p ++ [node] else a1.succs z }) acc).nfinished =
        acc.nfinished := by
  intro preds
  induction preds with
  | nil => intro acc; exact ⟨rfl, rfl⟩
  | cons p ps ih =>
      intro acc
      rw [List.foldl_cons]
      rcases ih _ with ⟨h1, h2⟩
      rw [h1, h2]
      exact register_counts _ _

theorem addPredFold_order_nodup (node : α) :
    ∀ (preds : List α) (acc : TS α), acc.order.Nodup →
      (preds.foldl (fun a p =>
        let a1 := a.register p
        { a1 with succs := fun z =>
            if z = p then a1.succs p ++ [node] else a1.succs z }) acc).order.Nodup := by
  intro preds
  induction preds with
  | nil => intro acc h; exact h
  | cons p ps ih =>
      intro acc h
      rw [List.foldl_cons]
      exact ih _ (register_order_nodup _ _ h)

theorem add_ready (s : TS α) (node : α) (preds : List α) :
    (s.add node preds).ready = s.ready := by
  rw [TS.add, addPredFold_ready]
  exact register_ready _ _

theorem add_counts (s : TS α) (node : α) (preds : List α) :
    (s.add node preds).npassedout = s.npassedout ∧
    (s.add node preds).nfinished = s.nfinished := by
  rw [TS.add]
  rcases addPredFold_counts node preds _ with ⟨h1, h2⟩
  rw [h1, h2]
  exact register_counts _ _

theorem add_order_nodup (s : TS α) (node : α) (preds : List α)
    (h : s.order.Nodup) :
    (s.add node preds).order.Nodup := by
  rw [TS.add]
  exact addPredFold_order_nodup _ _ _ (register_order_nodup _ _ h)

theorem foldDec_ready_mem :
    ∀ (l : List α) (acc : TS α),
      (∀ u ∈ l, (l.count u : Int) ≤ acc.npred u) →
      ∀ x, (x ∈ (l.foldl (fun a u =>
        let newv := a.npred u - 1
        { a with
          npred := fun z => if z = u then newv else a.npred z,
          ready := if newv = 0 then a.ready ++ [u] else a.ready }) acc).ready ↔
      (x ∈ acc.ready ∨ (x ∈ l ∧ acc.npred x = (l.count x : Int)))) := by
  intro l
  induction l with
  | nil => intro acc _ x; simp
  | cons u us ih =>
      intro acc hc x
      rw [List.foldl_cons]
      have hcu : (us.count u : Int) + 1 ≤ acc.npred u := by
        have := hc u (List.mem_cons_self u us)
        rw [List.count_cons] at this
        simp at this
        omega
      have hrec : ∀ v ∈ us, ((us.count v : Int)) ≤
          (if v = u then acc.npred u - 1 else acc.npred v) := by
        intro v hv
        by_cases hvu : v = u
        · subst hvu
          simp only [if_pos rfl]
          omega
        · simp only [if_neg hvu]
          have := hc v (List.mem_cons_of_mem _ hv)
          rw [List.count_cons, if_neg (by
            intro hb
            exact hvu (beq_iff_eq.mp hb).symm)] at this
          exact this
      rw [ih _ hrec x]
      have hcx : ((x :: us).count x : Int) = (us.count x : Int) + 1 := by
        rw [List.count_cons]
        simp
      by_cases hx : x = u
      · subst hx
        by_cases h0 : acc.npred x - 1 = 0
        · have hc0 : us.count x = 0 := by omega
          simp only [if_pos h0, List.mem_append, List.mem_singleton,
            eq_self_iff_true, if_true]
          constructor
          · intro _
            refine Or.inr ⟨List.mem_cons_self x us, ?_⟩
            omega
          · intro _
            exact Or.inl (Or.inr trivial)
        · simp only [if_neg h0, eq_self_iff_true, if_true]
          constructor
          · rintro (h1 | ⟨h1, h2⟩)
            · exact Or.inl h1
            · exact Or.inr ⟨List.mem_cons_self x us, by omega⟩
          · rintro (h1 | ⟨_, h2⟩)
            · exact Or.inl h1
            · refine Or.inr ⟨?_, by omega⟩
              refine List.count_pos_iff.mp ?_
              omega
      · have hmem : x ∈ (if acc.npred u - 1 = 0 then acc.ready ++ [u]
            else acc.ready) ↔ x ∈ acc.ready := by
          by_cases h0 : acc.npred u - 1 = 0
          · simp [h0, hx]
          · simp [h0]
        rw [hmem]
        simp only [if_neg hx]
        rw [List.count_cons, if_neg (by
          intro hb
          exact hx (beq_iff_eq.mp hb).symm)]
        simp only [List.mem_cons]
        constructor
        · rintro (h1 | ⟨h1, h2⟩)
          · exact Or.inl h1
          · exact Or.inr ⟨Or.inr h1, h2⟩
        · rintro (h1 | ⟨h1 | h1, h2⟩)
          · exact Or.inl h1
          · exact absurd h1 hx
          · exact Or.inr ⟨h1, h2⟩

theorem foldDec_ready_nodup :
    ∀ (l : List α) (acc : TS α),
      (∀ u ∈ l, (l.count u : Int) ≤ acc.npred u) →
      acc.ready.Nodup → (∀ u ∈ l, u ∉ acc.ready) →
      (l.foldl (fun a u =>
        let newv := a.npred u - 1
        { a with
          npred := fun z => if z = u then newv else a.npred z,
          ready := if newv = 0 then a.ready ++ [u] else a.ready }) acc).ready.Nodup := by
  intro l
  induction l with
  | nil => intro acc _ hnd _; exact hnd
  | cons u us ih =>
      intro acc hc hnd hdisj
      rw [List.foldl_cons]
      have hcu : (us.count u : Int) + 1 ≤ acc.npred u := by
        have := hc u (List.mem_cons_self u us)
        rw [List.count_cons] at this
        simp at this
        omega
      have hrec : ∀ v ∈ us, ((us.count v : Int)) ≤
          (if v = u then acc.npred u - 1 else acc.npred v) := by
        intro v hv
        by_cases hvu : v = u
        · subst hvu
          simp only [if_pos rfl]
          omega
        · simp only [if_neg hvu]
          have := hc v (List.mem_cons_of_mem _ hv)
          rw [List.count_cons, if_neg (by
            intro hb
            exact hvu (beq_iff_eq.mp hb).symm)] at this
          exact this
      refine ih _ hrec ?_ ?_
      · by_cases h0 : acc.npred u - 1 = 0
        · simp only [if_pos h0]
          simp [List.nodup_append, hnd, hdisj u (List.mem_cons_self u us)]
        · simpa [h0]
      · intro v hv
        by_cases h0 : acc.npred u - 1 = 0
        · simp only [if_pos h0, List.mem_append, List.mem_singleton]
          rintro (h1 | h1)
          · exact hdisj v (List.mem_cons_of_mem _ hv) h1
          · subst h1
            have := List.count_pos_iff.mpr hv
            omega
        · simp only [if_neg h0]
          exact hdisj v (List.mem_cons_of_mem _ hv)

theorem doneOne_ready (s : TS α) (node : α)
    (hself : node ∉ s.succs node)
    (hc : ∀ u ∈ s.succs node,
      ((s.succs node).count u : Int) ≤ s.npred u)
    (hnr : ∀ u ∈ s.succs node, u ∉ s.ready)
    (hnd : s.ready.Nodup) :
    (∀ x, (x ∈ (s.doneOne node).ready ↔
      (x ∈ s.ready ∨ (x ∈ s.succs node ∧
        s.npred x = ((s.succs node).count x : Int))))) ∧
    (s.doneOne node).ready.Nodup := by
  have hc1 : ∀ u ∈ s.succs node, ((s.succs node).count u : Int) ≤
      (if u = node then -2 else s.npred u) := by
    intro u hu
    rw [if_neg (by intro h; exact hself (h ▸ hu))]
    exact hc u hu
  constructor
  · intro x
    simp only [TS.doneOne]
    rw [foldDec_ready_mem _ _ hc1 x]
    by_cases hx : x ∈ s.succs node
    · have hxn : ¬ x = node := by intro h; exact hself (h ▸ hx)
      simp [hx, if_neg hxn]
    · simp [hx]
  · simp only [TS.doneOne]
    exact foldDec_ready_nodup _ _ hc1 hnd hnr

theorem length_filter_flip {β : Type} [DecidableEq β]
    (pB qB : β → Bool) (node : β) :
    ∀ l : List β,
      (∀ d ∈ l, (qB d = false ↔ (d = node ∨ pB d = false))) →
      pB node = true →
      (l.filter qB).length + l.count node = (l.filter pB).length := by
  intro l
  induction l with
  | nil => intro _ _; simp
  | cons d ds ih =>
      intro hiff hp
      have hd := hiff d (List.mem_cons_self d ds)
      have hih := ih (fun x hx => hiff x (List.mem_cons_of_mem _ hx)) hp
      simp only [List.filter_cons, List.count_cons]
      by_cases hdn : d = node
      · subst hdn
        have hq : qB d = false := hd.mpr (Or.inl rfl)
        simp [hq, hp]
        omega
      · have hbne : (d == node) = false := by
          simp [beq_iff_eq]
          exact hdn
        have hqp : qB d = pB d := by
          cases hq : qB d
          · rcases hd.mp hq with h1 | h1
            · exact absurd h1 hdn
            · exact h1.symm
          · cases hpv : pB d
            · exact absurd (hd.mpr (Or.inr hpv)) (by simp [hq])
            · rfl
        rw [hqp, hbne]
        cases hpv : pB d
        · simp [hpv]
          omega
        · simp [hpv]
          omega

theorem length_filter_mono {β : Type} (pB qB : β → Bool) :
    ∀ l : List β, (∀ x ∈ l, pB x = true → qB x = true) →
      (l.filter pB).length ≤ (l.filter qB).length := by
  intro l
  induction l with
  | nil => intro _; simp
  | cons d ds ih =>
      intro himp
      have hih := ih (fun x hx => himp x (List.mem_cons_of_mem _ hx))
      simp only [List.filter_cons]
      cases hp : pB d
      · cases hq : qB d
        · simpa using hih
        · simp
          omega
      · rw [himp d (List.mem_cons_self d ds) hp]
        simpa using hih

theorem length_filter_lt {β : Type} (pB qB : β → Bool) :
    ∀ l : List β, (∀ x ∈ l, pB x = true → qB x = true) →
      (∃ x ∈ l, pB x = false ∧ qB x = true) →
      (l.filter pB).length < (l.filter qB).length := by
  intro l
  induction l with
  | nil => rintro _ ⟨x, hx, _⟩; exact absurd hx (List.not_mem_nil x)
  | cons d ds ih =>
      rintro himp ⟨w, hw, hwp, hwq⟩
      have himp' := fun x hx => himp x (List.mem_cons_of_mem _ hx)
      simp only [List.filter_cons]
      rcases List.mem_cons.mp hw with hwd | hwd
      · subst hwd
        rw [hwp, hwq]
        have := length_filter_mono pB qB ds himp'
        simp
        omega
      · have hih := ih himp' ⟨w, hwd, hwp, hwq⟩
        cases hp : pB d
        · cases hq : qB d
          · simpa using hih
          · simp
            omega
        · rw [himp d (List.mem_cons_self d ds) hp]
          simpa using hih

theorem mem_eraseIdx_nodup {β : Type} [DecidableEq β] :
    ∀ (l : List β) (j : Nat) (hj : j < l.length), l.Nodup →
      ∀ x, (x ∈ l.eraseIdx j ↔ (x ∈ l ∧ x ≠ l.get ⟨j, hj⟩)) := by
  intro l
  induction l with
  | nil => intro j hj; simp at hj
  | cons a as ih =>
      intro j hj hnd x
      rcases List.nodup_cons.mp hnd with ⟨hna, hnd'⟩
      cases j with
      | zero =>
          simp only [List.eraseIdx, List.get, List.mem_cons]
          constructor
          · intro hx
            exact ⟨Or.inr hx, by
              intro he
              exact hna (he ▸ hx)⟩
          · rintro ⟨hx | hx, hne⟩
            · exact absurd hx hne
            · exact hx
      | succ j =>
          have hj' : j < as.length := by
            simpa using hj
          simp only [List.eraseIdx, List.mem_cons]
          rw [ih j hj' hnd' x]
          constructor
          · rintro (hx | ⟨hx, hne⟩)
            · subst hx
              refine ⟨Or.inl rfl, ?_⟩
              intro he
              have : as.get ⟨j, hj'⟩ ∈ as := as.get_mem j hj'
              exact hna (he ▸ this)
            · exact ⟨Or.inr hx, hne⟩
          · rintro ⟨hx | hx, hne⟩
            · exact Or.inl hx
            · exact Or.inr ⟨hx, hne⟩

theorem addFold_npred (f : α → List α) :
    ∀ (l : List α) (acc : TS α), l.Nodup →
      ∀ x, (l.foldl (fun s t => s.add t (f t)) acc).npred x =
        if x ∈ l then acc.npred x + ((f x).length : Int) else acc.npred x := by
  intro l
  induction l with
  | nil => intro acc _ x; simp
  | cons t ts ih =>
      intro acc hnd x
      rcases List.nodup_cons.mp hnd with ⟨hnt, hnd'⟩
      rw [List.foldl_cons, ih _ hnd' x, add_npred]
      by_cases hx : x ∈ ts
      · have hxt : ¬ x = t := fun h => hnt (h ▸ hx)
        rw [if_pos hx, if_pos (List.mem_cons_of_mem _ hx), if_neg hxt]
      · rw [if_neg hx]
        by_cases hxt : x = t
        · subst hxt
          rw [if_pos rfl, if_pos (List.mem_cons_self _ _)]
        · rw [if_neg hxt, if_neg (by
            intro hc
            rcases List.mem_cons.mp hc with h1 | h1
            · exact hxt h1
            · exact hx h1)]

theorem addFold_succs_count (f : α → List α) :
    ∀ (l : List α) (acc : TS α), l.Nodup →
      ∀ x y, ((l.foldl (fun s t => s.add t (f t)) acc).succs x).count y =
        (acc.succs x).count y + (if y ∈ l then (f y).count x else 0) := by
  intro l
  induction l with
  | nil => intro acc _ x y; simp
  | cons t ts ih =>
      intro acc hnd x y
      rcases List.nodup_cons.mp hnd with ⟨hnt, hnd'⟩
      rw [List.foldl_cons, ih _ hnd' x y, add_succs_count]
      by_cases hy : y ∈ ts
      · have hyt : ¬ y = t := fun h => hnt (h ▸ hy)
        rw [if_pos hy, if_pos (List.mem_cons_of_mem _ hy), if_neg hyt]
        omega
      · rw [if_neg hy]
        by_cases hyt : y = t
        · subst hyt
          rw [if_pos rfl, if_pos (List.mem_cons_self _ _)]
          omega
        · rw [if_neg hyt, if_neg (by
            intro hc
            rcases List.mem_cons.mp hc with h1 | h1
            · exact hyt h1
            · exact hy h1)]

theorem addFold_order_mem (f : α → List α) :
    ∀ (l : List α) (acc : TS α) (x : α),
      x ∈ (l.foldl (fun s t => s.add t (f t)) acc).order ↔
        (x ∈ acc.order ∨ ∃ t ∈ l, x = t ∨ x ∈ f t) := by
  intro l
  induction l with
  | nil => intro acc x; simp
  | cons t ts ih =>
      intro acc x
      rw [List.foldl_cons, ih, add_mem_order]
      constructor
      · rintro ((h | h | h) | ⟨u, hu, hx⟩)
        · exact Or.inl h
        · exact Or.inr ⟨t, List.mem_cons_self _ _, Or.inl h⟩
        · exact Or.inr ⟨t, List.mem_cons_self _ _, Or.inr h⟩
        · exact Or.inr ⟨u, List.mem_cons_of_mem _ hu, hx⟩
      · rintro (h | ⟨u, hu, hx⟩)
        · exact Or.inl (Or.inl h)
        · rcases List.mem_cons.mp hu with h1 | h1
          · subst h1
            rcases hx with hx | hx
            · exact Or.inl (Or.inr (Or.inl hx))
            · exact Or.inl (Or.inr (Or.inr hx))
          · exact Or.inr ⟨u, h1, hx⟩

theorem addFold_order_nodup (f : α → List α) :
    ∀ (l : List α) (acc : TS α), acc.order.Nodup →
      (l.foldl (fun s t => s.add t (f t)) acc).order.Nodup := by
  intro l
  induction l with
  | nil => intro acc h; exact h
  | cons t ts ih =>
      intro acc h
      rw [List.foldl_cons]
      exact ih _ (add_order_nodup _ _ _ h)

theorem addFold_ready (f : α → List α) :
    ∀ (l : List α) (acc : TS α),
      (l.foldl (fun s t => s.add t (f t)) acc).ready = acc.ready := by
  intro l
  induction l with
  | nil => intro acc; rfl
  | cons t ts ih =>
      intro acc
      rw [List.foldl_cons, ih, add_ready]

theorem addFold_counts (f : α → List α) :
    ∀ (l : List α) (acc : TS α),
      (l.foldl (fun s t => s.add t (f t)) acc).npassedout = acc.npassedout ∧
      (l.foldl (fun s t => s.add t (f t)) acc).nfinished = acc.nfinished := by
  intro l
  induction l with
  | nil => intro acc; exact ⟨rfl, rfl⟩
  | cons t ts ih =>
      intro acc
      rw [List.foldl_cons]
      rcases ih (acc.add t (f t)) with ⟨h1, h2⟩
      rw [h1, h2]
      exact add_counts _ _ _

theorem prepareReady_parts (s : TS α) :
    (s.prepareReady).npred = s.npred ∧
    (s.prepareReady).succs = s.succs ∧
    (s.prepareReady).order = s.order ∧
    (s.prepareReady).ready = s.order.filter (fun n => s.npred n = 0) ∧
    (s.prepareReady).npassedout = s.npassedout ∧
    (s.prepareReady).nfinished = s.nfinished :=
  ⟨rfl, rfl, rfl, rfl, rfl, rfl⟩

end Graphlib

open Graphlib

theorem dep_sizeOf_lt (t d : TargetDef) (h : d ∈ t.dependencies) :
    sizeOf d < sizeOf t := by
  cases t with
  | mk n p deps comps =>
      simp only [TargetDef.dependencies] at h
      have := List.sizeOf_lt_of_mem h
      simp only [TargetDef.mk.sizeOf_spec]
      omega

theorem self_not_dep (t : TargetDef) : t ∉ t.dependencies := by
  intro h
  have := dep_sizeOf_lt t t h
  omega

theorem mem_foldr_append {γ : Type} (f : γ → List TargetDef) :
    ∀ (l : List γ) (x : TargetDef),
      x ∈ l.foldr (fun d acc => f d ++ acc) [] ↔ ∃ d ∈ l, x ∈ f d := by
  intro l
  induction l with
  | nil => intro x; simp
  | cons a as ih =>
      intro x
      simp [List.foldr_cons, List.mem_append, ih]

theorem closureList_mem_iff (t x : TargetDef) :
    x ∈ closureList t ↔
      (x = t ∨ ∃ d ∈ t.dependencies, x ∈ closureList d) := by
  cases t with
  | mk n p deps comps =>
      rw [closureList]
      simp only [List.mem_cons]
      constructor
      · rintro (h | h)
        · exact Or.inl h
        · rcases (mem_foldr_append _ _ _).mp h with ⟨d, _, hx⟩
          refine Or.inr ⟨d.val, ?_, hx⟩
          simpa [TargetDef.dependencies] using d.property
      · rintro (h | ⟨v, hv, hx⟩)
        · exact Or.inl h
        · refine Or.inr ((mem_foldr_append _ _ _).mpr
            ⟨⟨v, by simpa [TargetDef.dependencies] using hv⟩,
              List.mem_attach _ _, hx⟩)

theorem closureList_self (t : TargetDef) : t ∈ closureList t := by
  cases t with
  | mk n p deps comps =>
      rw [closureList]
      exact List.mem_cons_self _ _

theorem closureList_trans :
    ∀ (t u x : TargetDef), u ∈ closureList t → x ∈ closureList u →
      x ∈ closureList t := by
  have main : ∀ (n : Nat) (t : TargetDef), sizeOf t ≤ n →
      ∀ u x, u ∈ closureList t → x ∈ closureList u → x ∈ closureList t := by
    intro n
    induction n with
    | zero =>
        intro t ht
        cases t with
        | mk a b c d =>
            simp only [TargetDef.mk.sizeOf_spec] at ht
            omega
    | succ n ihn =>
        intro t ht u x hu hx
        rcases (closureList_mem_iff t u).mp hu with h | ⟨d, hd, hud⟩
        · subst h; exact hx
        · have hlt := dep_sizeOf_lt t d hd
          have hxd : x ∈ closureList d := ihn d (by omega) u x hud hx
          exact (closureList_mem_iff t x).mpr (Or.inr ⟨d, hd, hxd⟩)
  intro t u x
  exact main (sizeOf t) t le_rfl u x

theorem closureList_dep_closed (root t d : TargetDef)
    (ht : t ∈ closureList root) (hd : d ∈ t.dependencies) :
    d ∈ closureList root :=
  closureList_trans root t d ht
    ((closureList_mem_iff t d).mpr (Or.inr ⟨d, hd, closureList_self d⟩))

theorem firstOcc_mem :
    ∀ (l seen : List TargetDef) (x : TargetDef),
      x ∈ firstOcc l seen ↔ (x ∈ l ∧ x ∉ seen) := by
  intro l
  induction l with
  | nil => intro seen x; simp [firstOcc]
  | cons y ys ih =>
      intro seen x
      rw [firstOcc]
      by_cases hy : y ∈ seen
      · rw [if_pos hy, ih]
        simp only [List.mem_cons]
        constructor
        · rintro ⟨hx, hns⟩
          exact ⟨Or.inr hx, hns⟩
        · rintro ⟨hx | hx, hns⟩
          · exact absurd (hx ▸ hy) hns
          · exact ⟨hx, hns⟩
      · rw [if_neg hy]
        simp only [List.mem_cons, ih]
        constructor
        · rintro (hx | ⟨hx, hns⟩)
          · subst hx
            exact ⟨Or.inl rfl, hy⟩
          · refine ⟨Or.inr hx, fun hc => hns (Or.inr hc)⟩
        · rintro ⟨hx | hx, hns⟩
          · exact Or.inl hx
          · by_cases hxy : x = y
            · exact Or.inl hxy
            · refine Or.inr ⟨hx, ?_⟩
              rintro (h1 | h1)
              · exact hxy h1
              · exact hns h1

theorem firstOcc_nodup :
    ∀ (l seen : List TargetDef), (firstOcc l seen).Nodup := by
  intro l
  induction l with
  | nil => intro seen; simp [firstOcc]
  | cons y ys ih =>
      intro seen
      rw [firstOcc]
      by_cases hy : y ∈ seen
      · rw [if_pos hy]
        exact ih _
      · rw [if_neg hy]
        refine List.nodup_cons.mpr ⟨?_, ih _⟩
        intro hc
        exact ((firstOcc_mem ys (y :: seen) y).mp hc).2 (List.mem_cons_self _ _)

theorem nodesOf_mem (root x : TargetDef) :
    x ∈ nodesOf root ↔ x ∈ closureList root := by
  rw [nodesOf, firstOcc_mem]
  simp

theorem nodesOf_nodup (root : TargetDef) : (nodesOf root).Nodup :=
  firstOcc_nodup _ _

theorem nodesOf_self (root : TargetDef) : root ∈ nodesOf root :=
  (nodesOf_mem root root).mpr (closureList_self root)

theorem nodesOf_dep_closed (root t d : TargetDef)
    (ht : t ∈ nodesOf root) (hd : d ∈ t.dependencies) :
    d ∈ nodesOf root :=
  (nodesOf_mem root d).mpr
    (closureList_dep_closed root t d ((nodesOf_mem root t).mp ht) hd)

theorem baseGraph_npred (root t : TargetDef) :
    (baseGraph root).npred t =
      if t ∈ nodesOf root then (t.dependencies.length : Int) else 0 := by
  rw [baseGraph, Graphlib.addFold_npred _ _ _ (nodesOf_nodup root) t]
  by_cases h : t ∈ nodesOf root
  · rw [if_pos h, if_pos h]
    show (0 : Int) + _ = _
    omega
  · rw [if_neg h, if_neg h]
    rfl

theorem baseGraph_succs_count (root x y : TargetDef) :
    ((baseGraph root).succs x).count y =
      if y ∈ nodesOf root then y.dependencies.count x else 0 := by
  rw [baseGraph, Graphlib.addFold_succs_count _ _ _ (nodesOf_nodup root) x y]
  show List.count y [] + _ = _
  simp

theorem baseGraph_succs_mem (root x y : TargetDef) :
    y ∈ (baseGraph root).succs x ↔
      (y ∈ nodesOf root ∧ x ∈ y.dependencies) := by
  rw [← List.count_pos_iff, baseGraph_succs_count]
  by_cases h : y ∈ nodesOf root
  · rw [if_pos h]
    rw [List.count_pos_iff]
    simp [h]
  · simp [h]

theorem baseGraph_order_mem (root x : TargetDef) :
    x ∈ (baseGraph root).order ↔ x ∈ nodesOf root := by
  rw [baseGraph, Graphlib.addFold_order_mem]
  constructor
  · rintro (h | ⟨t, ht, hx | hx⟩)
    · exact absurd h (List.not_mem_nil x)
    · exact hx ▸ ht
    · exact nodesOf_dep_closed root t x ht hx
  · intro h
    exact Or.inr ⟨x, h, Or.inl rfl⟩

theorem baseGraph_order_nodup (root : TargetDef) :
    (baseGraph root).order.Nodup := by
  rw [baseGraph]
  exact Graphlib.addFold_order_nodup _ _ _ List.nodup_nil

theorem baseGraph_ready (root : TargetDef) :
    (baseGraph root).ready = [] := by
  rw [baseGraph, Graphlib.addFold_ready]
  rfl

theorem baseGraph_counts (root : TargetDef) :
    (baseGraph root).npassedout = 0 ∧ (baseGraph root).nfinished = 0 := by
  rw [baseGraph]
  exact Graphlib.addFold_counts _ _ _

theorem unfinishedCount_congr (s s' : TS TargetDef) (t : TargetDef)
    (h : ∀ d ∈ t.dependencies, (s'.npred d = -2 ↔ s.npred d = -2)) :
    unfinishedCount s' t = unfinishedCount s t := by
  rw [unfinishedCount, unfinishedCount]
  have : t.dependencies.filter (fun d => ¬ s'.npred d = -2) =
      t.dependencies.filter (fun d => ¬ s.npred d = -2) := by
    refine List.filter_congr ?_
    intro d hd
    exact decide_eq_decide.mpr (not_congr (h d hd))
  rw [this]

theorem unfinishedCount_nonneg (s : TS TargetDef) (t : TargetDef) :
    0 ≤ unfinishedCount s t := by
  rw [unfinishedCount]
  positivity

theorem depedencyGraphSpec_init_unfinished (root t : TargetDef)
    (ht : t ∈ nodesOf root) :
    unfinishedCount (depedencyGraphSpec root) t =
      (t.dependencies.length : Int) := by
  rw [unfinishedCount]
  have hfil : t.dependencies.filter
      (fun d => ¬ (depedencyGraphSpec root).npred d = -2) =
      t.dependencies := by
    refine List.filter_eq_self.mpr ?_
    intro d hd
    have hdn : d ∈ nodesOf root := nodesOf_dep_closed root t d ht hd
    have hd2 : (depedencyGraphSpec root).npred d =
        (d.dependencies.length : Int) := by
      rw [depedencyGraphSpec, (Graphlib.prepareReady_parts _).1,
        baseGraph_npred, if_pos hdn]
    rw [hd2]
    simp only [decide_eq_true_eq]
    intro hc
    omega
  rw [hfil]

theorem simInv_init (root : TargetDef) :
    SimInv root (depedencyGraphSpec root) [] [] [] := by
  rcases Graphlib.prepareReady_parts (baseGraph root) with
    ⟨hn, hs, ho, hr, hp, hf⟩
  have hnpred : ∀ t, (depedencyGraphSpec root).npred t =
      (baseGraph root).npred t := by
    intro t
    rw [depedencyGraphSpec, hn]
  have hnode : ∀ t, t ∈ nodesOf root →
      (depedencyGraphSpec root).npred t = (t.dependencies.length : Int) := by
    intro t ht
    rw [hnpred, baseGraph_npred, if_pos ht]
  refine ⟨?_, ?_, ?_, ?_, ?_, ?_, ?_, ?_, ?_, ?_, ?_, ?_, ?_⟩
  · rw [depedencyGraphSpec, hs]
  · rw [depedencyGraphSpec, ho]
  · rw [depedencyGraphSpec, hp, hf]
    rcases baseGraph_counts root with ⟨h1, h2⟩
    rw [h1, h2]
    rfl
  · intro t ht
    refine Or.inr (Or.inr ?_)
    rw [hnode t ht, depedencyGraphSpec_init_unfinished root t ht]
  · intro t ht hcon
    rw [hnode t ht] at hcon
    rcases hcon with h | h <;> omega
  · intro t ht
    constructor
    · intro h
      rw [hnode t ht] at h
      omega
    · intro h
      exact absurd h (List.not_mem_nil t)
  · exact List.nodup_nil
  · intro t ht
    exact absurd ht (List.not_mem_nil t)
  · rw [depedencyGraphSpec, hr]
    exact (baseGraph_order_nodup root).filter _
  · intro t ht
    rw [depedencyGraphSpec, hr] at ht
    have h1 := List.mem_of_mem_filter ht
    have h2 := List.of_mem_filter ht
    refine ⟨(baseGraph_order_mem root t).mp h1, ?_⟩
    rw [hnpred]
    simpa using h2
  · intro t ht h0
    rw [depedencyGraphSpec, hr]
    refine List.mem_filter.mpr ⟨(baseGraph_order_mem root t).mpr ht, ?_⟩
    rw [hnpred] at h0
    simpa using h0
  · intro t
    constructor
    · intro h
      exact absurd h (List.not_mem_nil t)
    · rintro ⟨ht, h | h⟩ <;> (rw [hnode t ht] at h; omega)
  · intro t
    constructor
    · intro h
      exact absurd h (List.not_mem_nil t)
    · rintro ⟨ht, h, _⟩
      rw [hnode t ht] at h
      omega

theorem midInv_of_simInv (root : TargetDef) (s : TS TargetDef)
    (pending constructed started : List TargetDef)
    (hI : SimInv root s pending constructed started) :
    MidInv root (s.getReady).2 pending (constructed ++ s.ready) started
      s.ready := by
  obtain ⟨hK0s, hK0o, hK1, hK2, hK2', hK3, hK4n, hK4e, hK5n, hK5e, hK6,
    hK7, hK8⟩ := hI
  obtain ⟨hg1, hg2, hg3, hg4, hg5, hg6, hg7⟩ := Graphlib.getReady_fields s
  have hnp : ∀ x, (s.getReady).2.npred x =
      if x ∈ s.ready then -1 else s.npred x := by
    intro x
    rw [hg7]
  have hsent : ∀ x, ((s.getReady).2.npred x = -2 ↔ s.npred x = -2) := by
    intro x
    rw [hnp]
    by_cases hx : x ∈ s.ready
    · rw [if_pos hx]
      have h0 := (hK5e x hx).2
      constructor
      · intro h
        omega
      · intro h
        omega
    · rw [if_neg hx]
  have hunf : ∀ t, unfinishedCount (s.getReady).2 t = unfinishedCount s t :=
    fun t => unfinishedCount_congr _ _ t (fun d _ => hsent d)
  refine ⟨?_, ?_, ?_, ?_, ?_, ?_, hK4n, hK4e, ?_, ?_, ?_, ?_, ?_, hK5n, ?_⟩
  · rw [hg5, hK0s]
  · rw [hg6, hK0o]
  · rw [hg3, hg4]
    omega
  · intro t ht
    by_cases hx : t ∈ s.ready
    · refine Or.inl ?_
      rw [hnp, if_pos hx]
    · rw [hnp, if_neg hx, hunf]
      exact hK2 t ht
  · intro t ht hcon
    rw [hunf]
    by_cases hx : t ∈ s.ready
    · have h0 := (hK5e t hx).2
      rcases hK2 t ht with h | h | h
      · omega
      · omega
      · rw [h0] at h
        omega
    · rw [hnp, if_neg hx] at hcon
      exact hK2' t ht hcon
  · intro t ht
    rw [hnp]
    by_cases hx : t ∈ s.ready
    · rw [if_pos hx]
      exact iff_of_true rfl (Or.inr hx)
    · rw [if_neg hx]
      constructor
      · intro h
        exact Or.inl ((hK3 t ht).mp h)
      · rintro (h | h)
        · exact (hK3 t ht).mpr h
        · exact absurd h hx
  · rw [hg2]
    exact List.nodup_nil
  · intro t ht
    rw [hg2] at ht
    exact absurd ht (List.not_mem_nil t)
  · intro t ht h0
    rw [hnp] at h0
    by_cases hx : t ∈ s.ready
    · rw [if_pos hx] at h0
      exact absurd h0 (by decide)
    · rw [if_neg hx] at h0
      exact absurd (hK6 t ht h0) hx
  · intro t
    rw [List.mem_append]
    constructor
    · rintro (h | h)
      · rcases (hK7 t).mp h with ⟨ht, hc⟩
        refine ⟨ht, ?_⟩
        rw [hnp]
        by_cases hx : t ∈ s.ready
        · rw [if_pos hx]
          exact Or.inl rfl
        · rw [if_neg hx]
          exact hc
      · refine ⟨(hK5e t h).1, ?_⟩
        rw [hnp, if_pos h]
        exact Or.inl rfl
    · rintro ⟨ht, hc⟩
      rw [hnp] at hc
      by_cases hx : t ∈ s.ready
      · exact Or.inr hx
      · rw [if_neg hx] at hc
        exact Or.inl ((hK7 t).mpr ⟨ht, hc⟩)
  · intro t
    rw [hK8 t]
    constructor
    · rintro ⟨ht, h2, hst⟩
      exact ⟨ht, (hsent t).mpr h2, hst⟩
    · rintro ⟨ht, h2, hst⟩
      exact ⟨ht, (hsent t).mp h2, hst⟩
  · intro t ht
    refine ⟨(hK5e t ht).1, by rw [hnp, if_pos ht], ?_, ?_⟩
    · intro hp
      have h1 := (hK3 t (hK5e t ht).1).mpr hp
      have h0 := (hK5e t ht).2
      omega
    · rw [hg2]
      exact List.not_mem_nil t

theorem doneOne_core (root : TargetDef) (s : TS TargetDef) (t : TargetDef)
    (hK0s : s.succs = (baseGraph root).succs)
    (hK2 : ∀ u ∈ nodesOf root,
      s.npred u = -1 ∨ s.npred u = -2 ∨ s.npred u = unfinishedCount s u)
    (hK2' : ∀ u ∈ nodesOf root,
      (s.npred u = -1 ∨ s.npred u = -2) → unfinishedCount s u = 0)
    (hK5n : s.ready.Nodup)
    (hK5e : ∀ u ∈ s.ready, u ∈ nodesOf root ∧ s.npred u = 0)
    (hK6 : ∀ u ∈ nodesOf root, s.npred u = 0 → u ∈ s.ready)
    (ht : t ∈ nodesOf root) (htp : s.npred t = -1) :
    (s.doneOne t).npred t = -2 ∧
    (∀ u, u ≠ t → ((s.doneOne t).npred u = -1 ↔ s.npred u = -1)) ∧
    (∀ u, u ≠ t → ((s.doneOne t).npred u = -2 ↔ s.npred u = -2)) ∧
    (∀ u ∈ nodesOf root,
      (s.doneOne t).npred u = -1 ∨ (s.doneOne t).npred u = -2 ∨
        (s.doneOne t).npred u = unfinishedCount (s.doneOne t) u) ∧
    (∀ u ∈ nodesOf root,
      ((s.doneOne t).npred u = -1 ∨ (s.doneOne t).npred u = -2) →
        unfinishedCount (s.doneOne t) u = 0) ∧
    (s.doneOne t).ready.Nodup ∧
    (∀ u ∈ (s.doneOne t).ready,
      u ∈ nodesOf root ∧ (s.doneOne t).npred u = 0) ∧
    (∀ u ∈ nodesOf root,
      (s.doneOne t).npred u = 0 → u ∈ (s.doneOne t).ready) ∧
    (∀ u ∈ s.ready, u ∈ (s.doneOne t).ready) := by
  have hcnt : ∀ u, (s.succs t).count u =
      if u ∈ nodesOf root then u.dependencies.count t else 0 := by
    intro u
    rw [hK0s, baseGraph_succs_count]
  have hmemsucc : ∀ u, u ∈ s.succs t ↔
      (u ∈ nodesOf root ∧ t ∈ u.dependencies) := by
    intro u
    rw [hK0s, baseGraph_succs_mem]
  have hself : t ∉ s.succs t := by
    rw [hmemsucc]
    rintro ⟨_, hd⟩
    exact self_not_dep t hd
  have hzero : ∀ u ∈ nodesOf root, (s.npred u = -1 ∨ s.npred u = -2) →
      u.dependencies.count t = 0 := by
    intro u hu hc
    have h0 := hK2' u hu hc
    rw [unfinishedCount] at h0
    have hlen : (u.dependencies.filter (fun d => ¬ s.npred d = -2)).length
        = 0 := by
      exact_mod_cast h0
    have hfil := List.length_eq_zero.mp hlen
    refine List.count_eq_zero.mpr ?_
    intro hmem
    have hint : t ∈ u.dependencies.filter (fun d => ¬ s.npred d = -2) := by
      refine List.mem_filter.mpr ⟨hmem, ?_⟩
      simp only [decide_eq_true_eq]
      omega
    rw [hfil] at hint
    exact absurd hint (List.not_mem_nil t)
  have hwait : ∀ u ∈ nodesOf root, s.npred u = unfinishedCount s u →
      (u.dependencies.count t : Int) ≤ unfinishedCount s u := by
    intro u hu hw
    rw [unfinishedCount]
    have h1 : u.dependencies.count t =
        (u.dependencies.filter (fun d => ¬ s.npred d = -2)).count t := by
      refine (List.count_filter ?_).symm
      simp only [decide_eq_true_eq]
      omega
    rw [h1]
    exact_mod_cast List.count_le_length _ _
  have hdone2 : (s.doneOne t).npred t = -2 := by
    rw [Graphlib.doneOne_npred, if_pos rfl, hcnt t, if_pos ht,
      List.count_eq_zero.mpr (self_not_dep t)]
    simp
  have hchg : ∀ u, u ≠ t → (s.doneOne t).npred u =
      s.npred u - ((s.succs t).count u : Int) := by
    intro u hu
    rw [Graphlib.doneOne_npred, if_neg hu]
  have hsame : ∀ u ∈ nodesOf root, (s.npred u = -1 ∨ s.npred u = -2) →
      u ≠ t → (s.doneOne t).npred u = s.npred u := by
    intro u hu hc hne
    rw [hchg u hne, hcnt u, if_pos hu, hzero u hu hc]
    simp
  have hnon : ∀ u, u ∉ nodesOf root → (s.doneOne t).npred u = s.npred u := by
    intro u hu
    by_cases hne : u = t
    · subst hne
      exact absurd ht hu
    · rw [hchg u hne, hcnt u, if_neg hu]
      simp
  have hs1 : ∀ u, u ≠ t →
      ((s.doneOne t).npred u = -1 ↔ s.npred u = -1) := by
    intro u hne
    by_cases hu : u ∈ nodesOf root
    · rcases hK2 u hu with h | h | h
      · rw [hsame u hu (Or.inl h) hne]
      · rw [hsame u hu (Or.inr h) hne]
      · have hge := hwait u hu h
        have hnn := unfinishedCount_nonneg s u
        rw [hchg u hne, hcnt u, if_pos hu]
        omega
    · rw [hnon u hu]
  have hs2 : ∀ u, u ≠ t →
      ((s.doneOne t).npred u = -2 ↔ s.npred u = -2) := by
    intro u hne
    by_cases hu : u ∈ nodesOf root
    · rcases hK2 u hu with h | h | h
      · rw [hsame u hu (Or.inl h) hne]
      · rw [hsame u hu (Or.inr h) hne]
      · have hge := hwait u hu h
        have hnn := unfinishedCount_nonneg s u
        rw [hchg u hne, hcnt u, if_pos hu]
        omega
    · rw [hnon u hu]
  have hflip : ∀ u, unfinishedCount (s.doneOne t) u +
      (u.dependencies.count t : Int) = unfinishedCount s u := by
    intro u
    have hiff : ∀ d ∈ u.dependencies,
        ((fun d => decide (¬ (s.doneOne t).npred d = -2)) d = false ↔
          (d = t ∨ (fun d => decide (¬ s.npred d = -2)) d = false)) := by
      intro d _
      simp only [decide_eq_false_iff_not, not_not]
      by_cases hdt : d = t
      · subst hdt
        exact iff_of_true hdone2 (Or.inl rfl)
      · rw [hs2 d hdt]
        constructor
        · intro h
          exact Or.inr h
        · rintro (h | h)
          · exact absurd h hdt
          · exact h
    have hpt : (fun d => decide (¬ s.npred d = -2)) t = true := by
      simp only [decide_eq_true_eq]
      omega
    have hnat := Graphlib.length_filter_flip
      (fun d => decide (¬ s.npred d = -2))
      (fun d => decide (¬ (s.doneOne t).npred d = -2))
      t u.dependencies hiff hpt
    rw [unfinishedCount, unfinishedCount]
    exact_mod_cast hnat
  have hcready : ∀ u ∈ s.succs t,
      ((s.succs t).count u : Int) ≤ s.npred u := by
    intro u hu
    rcases (hmemsucc u).mp hu with ⟨hun, hud⟩
    have hpos := List.count_pos_iff.mpr hud
    rcases hK2 u hun with h | h | h
    · have hz := hzero u hun (Or.inl h)
      omega
    · have hz := hzero u hun (Or.inr h)
      omega
    · have hge := hwait u hun h
      rw [hcnt u, if_pos hun]
      omega
  have hnready : ∀ u ∈ s.succs t, u ∉ s.ready := by
    intro u hu hr
    have h0 := (hK5e u hr).2
    rcases (hmemsucc u).mp hu with ⟨hun, hud⟩
    have hpos := List.count_pos_iff.mpr hud
    rcases hK2 u hun with h | h | h
    · omega
    · omega
    · have hge := hwait u hun h
      omega
  obtain ⟨hrmem, hrnodup⟩ :=
    Graphlib.doneOne_ready s t hself hcready hnready hK5n
  have hK5en : ∀ u ∈ (s.doneOne t).ready,
      u ∈ nodesOf root ∧ (s.doneOne t).npred u = 0 := by
    intro u hu
    rcases (hrmem u).mp hu with h | ⟨hsuc, heq⟩
    · rcases hK5e u h with ⟨hun, h0⟩
      refine ⟨hun, ?_⟩
      rcases hK2 u hun with hh | hh | hh
      · omega
      · omega
      · have hne : u ≠ t := by
          intro he
          rw [he] at h0
          omega
        have hge := hwait u hun hh
        rw [hchg u hne, hcnt u, if_pos hun]
        omega
    · rcases (hmemsucc u).mp hsuc with ⟨hun, hud⟩
      have hne : u ≠ t := by
        intro he
        exact hself (he ▸ hsuc)
      refine ⟨hun, ?_⟩
      rw [hchg u hne]
      omega
  have hK6n : ∀ u ∈ nodesOf root,
      (s.doneOne t).npred u = 0 → u ∈ (s.doneOne t).ready := by
    intro u hu h0
    have hne : u ≠ t := by
      intro he
      rw [he, hdone2] at h0
      exact absurd h0 (by decide)
    rw [hchg u hne] at h0
    by_cases hz : (s.succs t).count u = 0
    · rw [hz] at h0
      refine (hrmem u).mpr (Or.inl (hK6 u hu (by omega)))
    · refine (hrmem u).mpr (Or.inr ⟨?_, ?_⟩)
      · exact List.count_pos_iff.mp (Nat.pos_of_ne_zero hz)
      · omega
  have hK2n : ∀ u ∈ nodesOf root,
      (s.doneOne t).npred u = -1 ∨ (s.doneOne t).npred u = -2 ∨
        (s.doneOne t).npred u = unfinishedCount (s.doneOne t) u := by
    intro u hu
    by_cases hne : u = t
    · subst hne
      exact Or.inr (Or.inl hdone2)
    · rcases hK2 u hu with h | h | h
      · exact Or.inl ((hs1 u hne).mpr h)
      · exact Or.inr (Or.inl ((hs2 u hne).mpr h))
      · refine Or.inr (Or.inr ?_)
        have hfl := hflip u
        rw [hchg u hne, hcnt u, if_pos hu]
        omega
  have hK2'n : ∀ u ∈ nodesOf root,
      ((s.doneOne t).npred u = -1 ∨ (s.doneOne t).npred u = -2) →
        unfinishedCount (s.doneOne t) u = 0 := by
    intro u hu hc
    by_cases hne : u = t
    · subst hne
      have h0 := hK2' u hu (Or.inl htp)
      have hfl := hflip u
      have hc0 : u.dependencies.count u = 0 :=
        List.count_eq_zero.mpr (self_not_dep u)
      omega
    · have hcs : s.npred u = -1 ∨ s.npred u = -2 := by
        rcases hc with h | h
        · exact Or.inl ((hs1 u hne).mp h)
        · exact Or.inr ((hs2 u hne).mp h)
      have h0 := hK2' u hu hcs
      have hfl := hflip u
      have hcnt0 : u.dependencies.count t = 0 := hzero u hu hcs
      omega
  exact ⟨hdone2, hs1, hs2, hK2n, hK2'n, hrnodup, hK5en, hK6n,
    fun u hu => (hrmem u).mpr (Or.inl hu)⟩

theorem midInv_pend (root : TargetDef) (s : TS TargetDef)
    (pending constructed started : List TargetDef) (t : TargetDef)
    (ts : List TargetDef)
    (hI : MidInv root s pending constructed started (t :: ts))
    (hst : tdStartable t = true) :
    MidInv root s (pending ++ [t]) constructed started ts := by
  obtain ⟨h1, h2, h3, h4, h5, h6, h7, h8, h9, h10, h11, h12, h13, h14, h15⟩ :=
    hI
  have htf := h15 t (List.mem_cons_self t ts)
  rcases List.nodup_cons.mp h14 with ⟨htts, hts_nd⟩
  refine ⟨h1, h2, ?_, h4, h5, ?_, ?_, ?_, h9, h10, h11, h12, h13, hts_nd, ?_⟩
  · simp only [List.length_append, List.length_singleton]
    simp only [List.length_cons] at h3
    omega
  · intro u hu
    rw [h6 u hu]
    simp only [List.mem_append, List.mem_singleton, List.mem_cons]
    tauto
  · simp only [List.nodup_append, List.nodup_cons, List.nodup_nil]
    refine ⟨h7, ⟨by simp, trivial⟩, ?_⟩
    intro a ha
    simp only [List.mem_singleton]
    intro hc
    exact htf.2.2.1 (hc ▸ ha)
  · intro u hu
    rcases List.mem_append.mp hu with h | h
    · exact h8 u h
    · rw [List.mem_singleton] at h
      subst h
      exact ⟨htf.1, hst⟩
  · intro u hu
    have hu' := h15 u (List.mem_cons_of_mem _ hu)
    refine ⟨hu'.1, hu'.2.1, ?_, hu'.2.2.2⟩
    intro hc
    rcases List.mem_append.mp hc with h | h
    · exact hu'.2.2.1 h
    · rw [List.mem_singleton] at h
      exact htts (h ▸ hu)

theorem midInv_done (root : TargetDef) (s : TS TargetDef)
    (pending constructed started : List TargetDef) (t : TargetDef)
    (ts : List TargetDef)
    (hI : MidInv root s pending constructed started (t :: ts))
    (hns : tdStartable t = false) :
    MidInv root (s.doneOne t) pending constructed started ts := by
  obtain ⟨h1, h2, h3, h4, h5, h6, h7, h8, h9, h10, h11, h12, h13, h14, h15⟩ :=
    hI
  have htf := h15 t (List.mem_cons_self t ts)
  rcases List.nodup_cons.mp h14 with ⟨htts, hts_nd⟩
  obtain ⟨hdone2, hs1, hs2, hK2n, hK2'n, hrnodup, hK5en, hK6n, hmono⟩ :=
    doneOne_core root s t h1 h4 h5 h9 h10 h11 htf.1 htf.2.1
  refine ⟨?_, ?_, ?_, hK2n, hK2'n, ?_, h7, h8, hrnodup, hK5en, hK6n, ?_, ?_,
    hts_nd, ?_⟩
  · rw [Graphlib.doneOne_succs, h1]
  · rw [Graphlib.doneOne_order, h2]
  · rw [Graphlib.doneOne_npassedout, Graphlib.doneOne_nfinished]
    simp only [List.length_cons] at h3
    omega
  · intro u hu
    by_cases hne : u = t
    · subst hne
      constructor
      · intro h
        rw [hdone2] at h
        exact absurd h (by decide)
      · rintro (h | h)
        · exact absurd h htf.2.2.1
        · exact absurd h htts
    · rw [hs1 u hne, h6 u hu]
      constructor
      · rintro (h | h)
        · exact Or.inl h
        · rcases List.mem_cons.mp h with h' | h'
          · exact absurd h' hne
          · exact Or.inr h'
      · rintro (h | h)
        · exact Or.inl h
        · exact Or.inr (List.mem_cons_of_mem _ h)
  · intro u
    rw [h12 u]
    by_cases hne : u = t
    · subst hne
      constructor
      · rintro ⟨hun, _⟩
        exact ⟨hun, Or.inr hdone2⟩
      · rintro ⟨hun, _⟩
        exact ⟨hun, Or.inl htf.2.1⟩
    · constructor
      · rintro ⟨hun, hc⟩
        refine ⟨hun, ?_⟩
        rcases hc with h | h
        · exact Or.inl ((hs1 u hne).mpr h)
        · exact Or.inr ((hs2 u hne).mpr h)
      · rintro ⟨hun, hc⟩
        refine ⟨hun, ?_⟩
        rcases hc with h | h
        · exact Or.inl ((hs1 u hne).mp h)
        · exact Or.inr ((hs2 u hne).mp h)
  · intro u
    rw [h13 u]
    by_cases hne : u = t
    · subst hne
      constructor
      · rintro ⟨_, _, hstt⟩
        rw [hstt] at hns
        exact absurd hns (by decide)
      · rintro ⟨_, _, hstt⟩
        rw [hstt] at hns
        exact absurd hns (by decide)
    · constructor
      · rintro ⟨hun, hc, hstt⟩
        exact ⟨hun, (hs2 u hne).mpr hc, hstt⟩
      · rintro ⟨hun, hc, hstt⟩
        exact ⟨hun, (hs2 u hne).mp hc, hstt⟩
  · intro u hu
    have hu' := h15 u (List.mem_cons_of_mem _ hu)
    have hne : u ≠ t := fun h => htts (h ▸ hu)
    refine ⟨hu'.1, (hs1 u hne).mpr hu'.2.1, hu'.2.2.1, ?_⟩
    intro hc
    have hz := (hK5en u hc).2
    have h1' := (hs1 u hne).mpr hu'.2.1
    omega

theorem midInv_batch (root : TargetDef) :
    ∀ (rem : List TargetDef) (s : TS TargetDef)
      (pending constructed started : List TargetDef),
      MidInv root s pending constructed started rem →
      SimInv root (startBatch rem s pending).1 (startBatch rem s pending).2
        constructed started := by
  intro rem
  induction rem with
  | nil =>
      intro s pending constructed started hI
      obtain ⟨h1, h2, h3, h4, h5, h6, h7, h8, h9, h10, h11, h12, h13, _, _⟩ :=
        hI
      rw [startBatch]
      refine ⟨h1, h2, ?_, h4, h5, ?_, h7, h8, h9, h10, h11, h12, h13⟩
      · simpa using h3
      · intro u hu
        rw [h6 u hu]
        simp
  | cons t ts ih =>
      intro s pending constructed started hI
      rw [startBatch]
      by_cases hst : tdStartable t = true
      · rw [if_pos hst]
        exact ih _ _ _ _ (midInv_pend root s pending constructed started t ts
          hI hst)
      · rw [if_neg hst]
        have hns : tdStartable t = false := by
          cases h : tdStartable t
          · rfl
          · exact absurd h hst
        exact ih _ _ _ _ (midInv_done root s pending constructed started t ts
          hI hns)

theorem simInv_complete (root : TargetDef) (s : TS TargetDef)
    (pending constructed started : List TargetDef) (j : Nat)
    (hj : j < pending.length)
    (hI : SimInv root s pending constructed started) :
    SimInv root (s.doneOne (pending.get ⟨j, hj⟩)) (pending.eraseIdx j)
      constructed (started ++ [pending.get ⟨j, hj⟩]) := by
  obtain ⟨h1, h2, h3, h4, h5, h6, h7, h8, h9, h10, h11, h12, h13⟩ := hI
  set t := pending.get ⟨j, hj⟩ with hteq
  have htmem : t ∈ pending := pending.get_mem j hj
  have htf := h8 t htmem
  have htp : s.npred t = -1 := (h6 t htf.1).mpr htmem
  have hmem_erase := fun x =>
    Graphlib.mem_eraseIdx_nodup pending j hj h7 x
  have herase_len : (pending.eraseIdx j).length = pending.length - 1 := by
    rw [List.length_eraseIdx]
    simp [hj]
  obtain ⟨hdone2, hs1, hs2, hK2n, hK2'n, hrnodup, hK5en, hK6n, hmono⟩ :=
    doneOne_core root s t h1 h4 h5 h9 h10 h11 htf.1 htp
  refine ⟨?_, ?_, ?_, hK2n, hK2'n, ?_, ?_, ?_, hrnodup, hK5en, hK6n, ?_, ?_⟩
  · rw [Graphlib.doneOne_succs, h1]
  · rw [Graphlib.doneOne_order, h2]
  · rw [Graphlib.doneOne_npassedout, Graphlib.doneOne_nfinished, herase_len]
    omega
  · intro u hu
    by_cases hne : u = t
    · subst hne
      constructor
      · intro h
        rw [hdone2] at h
        exact absurd h (by decide)
      · intro h
        rcases (hmem_erase t).mp h with ⟨_, hne'⟩
        exact absurd hteq hne'
    · rw [hs1 u hne, h6 u hu, hmem_erase u]
      constructor
      · intro h
        exact ⟨h, hne⟩
      · rintro ⟨h, _⟩
        exact h
  · exact (List.eraseIdx_sublist pending j).nodup h7
  · intro u hu
    exact h8 u ((hmem_erase u).mp hu).1
  · intro u
    rw [h12 u]
    by_cases hne : u = t
    · subst hne
      constructor
      · rintro ⟨hun, _⟩
        exact ⟨hun, Or.inr hdone2⟩
      · rintro ⟨hun, _⟩
        exact ⟨hun, Or.inl htp⟩
    · constructor
      · rintro ⟨hun, hc⟩
        refine ⟨hun, ?_⟩
        rcases hc with h | h
        · exact Or.inl ((hs1 u hne).mpr h)
        · exact Or.inr ((hs2 u hne).mpr h)
      · rintro ⟨hun, hc⟩
        refine ⟨hun, ?_⟩
        rcases hc with h | h
        · exact Or.inl ((hs1 u hne).mp h)
        · exact Or.inr ((hs2 u hne).mp h)
  · intro u
    by_cases hne : u = t
    · subst hne
      constructor
      · intro _
        exact ⟨htf.1, hdone2, htf.2⟩
      · intro _
        exact List.mem_append.mpr (Or.inr (List.mem_singleton.mpr rfl))
    · constructor
      · intro h
        rcases List.mem_append.mp h with h' | h'
        · rcases (h13 u).mp h' with ⟨hun, hc, hstt⟩
          exact ⟨hun, (hs2 u hne).mpr hc, hstt⟩
        · rw [List.mem_singleton] at h'
          exact absurd h' hne
      · rintro ⟨hun, hc, hstt⟩
        refine List.mem_append.mpr (Or.inl ?_)
        exact (h13 u).mpr ⟨hun, (hs2 u hne).mp hc, hstt⟩

theorem startBatch_pending_mono :
    ∀ (rem : List TargetDef) (s : TS TargetDef) (pending : List TargetDef)
      (x : TargetDef), x ∈ pending → x ∈ (startBatch rem s pending).2 := by
  intro rem
  induction rem with
  | nil =>
      intro s pending x hx
      rw [startBatch]
      exact hx
  | cons t ts ih =>
      intro s pending x hx
      rw [startBatch]
      by_cases hst : tdStartable t = true
      · rw [if_pos hst]
        exact ih _ _ x (List.mem_append.mpr (Or.inl hx))
      · rw [if_neg hst]
        exact ih _ _ x hx

theorem getReady_done_iff (s : TS TargetDef)
    (hK5e : ∀ u ∈ s.ready, s.npred u = 0) (u : TargetDef) :
    ((s.getReady).2.npred u = -2 ↔ s.npred u = -2) := by
  have h := congrFun (Graphlib.getReady_fields s).2.2.2.2.2.2 u
  rw [h]
  by_cases hx : u ∈ s.ready
  · rw [if_pos hx]
    have h0 := hK5e u hx
    constructor
    · intro hc
      omega
    · intro hc
      omega
  · rw [if_neg hx]

theorem midInv_batch_mono (root : TargetDef) :
    ∀ (rem : List TargetDef) (s : TS TargetDef)
      (pending constructed started : List TargetDef),
      MidInv root s pending constructed started rem →
      ∀ u, s.npred u = -2 → (startBatch rem s pending).1.npred u = -2 := by
  intro rem
  induction rem with
  | nil =>
      intro s pending c st _ u h
      rw [startBatch]
      exact h
  | cons t ts ih =>
      intro s pending c st hI u h
      obtain ⟨h1, h2, h3, h4, h5, h6, h7, h8, h9, h10, h11, h12, h13, h14,
        h15⟩ := hI
      have hIc : MidInv root s pending c st (t :: ts) :=
        ⟨h1, h2, h3, h4, h5, h6, h7, h8, h9, h10, h11, h12, h13, h14, h15⟩
      have htf := h15 t (List.mem_cons_self t ts)
      rw [startBatch]
      by_cases hst : tdStartable t = true
      · rw [if_pos hst]
        exact ih _ _ _ _ (midInv_pend root s pending c st t ts hIc hst) u h
      · rw [if_neg hst]
        have hns : tdStartable t = false := by
          cases hb : tdStartable t
          · rfl
          · exact absurd hb hst
        refine ih _ _ _ _ (midInv_done root s pending c st t ts hIc hns) u ?_
        obtain ⟨hdone2, hs1, hs2, _⟩ :=
          doneOne_core root s t h1 h4 h5 h9 h10 h11 htf.1 htf.2.1
        by_cases hne : u = t
        · subst hne
          exact hdone2
        · exact (hs2 u hne).mpr h

theorem startLoop_step (pick : Nat → Nat) (fuel i : Nat) (s : TS TargetDef)
    (pending constructed started : List TargetDef) :
    startLoop pick (fuel + 1) i s pending constructed started =
      if s.isActive || !pending.isEmpty then
        if h : (startBatch (s.getReady).1 (s.getReady).2 pending).2 = [] then
          startLoop pick fuel (i + 1)
            (startBatch (s.getReady).1 (s.getReady).2 pending).1
            (startBatch (s.getReady).1 (s.getReady).2 pending).2
            (constructed ++ (s.getReady).1) started
        else
          startLoop pick fuel (i + 1)
            ((startBatch (s.getReady).1 (s.getReady).2 pending).1.doneOne
              ((startBatch (s.getReady).1 (s.getReady).2 pending).2.get
                ⟨pick i % (startBatch (s.getReady).1 (s.getReady).2
                  pending).2.length,
                  Nat.mod_lt _ (List.length_pos.mpr h)⟩))
            ((startBatch (s.getReady).1 (s.getReady).2 pending).2.eraseIdx
              (pick i % (startBatch (s.getReady).1 (s.getReady).2
                pending).2.length))
            (constructed ++ (s.getReady).1)
            (started ++ [(startBatch (s.getReady).1 (s.getReady).2
              pending).2.get
                ⟨pick i % (startBatch (s.getReady).1 (s.getReady).2
                  pending).2.length,
                  Nat.mod_lt _ (List.length_pos.mpr h)⟩])
      else ⟨s, pending, constructed, started, true⟩ := rfl

theorem startLoop_drain (root : TargetDef) (pick : Nat → Nat) :
    ∀ (fuel i : Nat) (s : TS TargetDef)
      (pending constructed started : List TargetDef),
      SimInv root s pending constructed started →
      ((nodesOf root).filter (fun u => ¬ s.npred u = -2)).length < fuel →
      ∃ r, startLoop pick fuel i s pending constructed started = r ∧
        r.finishedNormally = true ∧
        SimInv root r.graph r.pending r.constructed r.startedOrder ∧
        r.pending = [] ∧ r.graph.ready = [] := by
  intro fuel
  induction fuel with
  | zero =>
      intro i s pending constructed started _ hm
      exact absurd hm (Nat.not_lt_zero _)
  | succ fuel ih =>
      intro i s pending constructed started hI hm
      by_cases hcond : (s.isActive || !pending.isEmpty) = true
      · have hIc := hI
        obtain ⟨hI1, hI2, hI3, hI4, hI5, hI6, hI7, hI8, hI9, hI10, hI11,
          hI12, hI13⟩ := hIc
        have hmid : MidInv root (s.getReady).2 pending
            (constructed ++ (s.getReady).1) started ((s.getReady).1) :=
          midInv_of_simInv root s pending constructed started hI
        have hsim2 : SimInv root
            (startBatch (s.getReady).1 (s.getReady).2 pending).1
            (startBatch (s.getReady).1 (s.getReady).2 pending).2
            (constructed ++ (s.getReady).1) started :=
          midInv_batch root (s.getReady).1 (s.getReady).2 pending
            (constructed ++ (s.getReady).1) started hmid
        have hbmono : ∀ u, s.npred u = -2 →
            (startBatch (s.getReady).1 (s.getReady).2 pending).1.npred u
              = -2 := by
          intro u hu
          have h1 := (getReady_done_iff s (fun v hv => (hI10 v hv).2) u).mpr hu
          exact midInv_batch_mono root (s.getReady).1 (s.getReady).2 pending
            (constructed ++ (s.getReady).1) started hmid u h1
        have hmono_len : ((nodesOf root).filter (fun u =>
            ¬ (startBatch (s.getReady).1 (s.getReady).2 pending).1.npred u
              = -2)).length ≤
            ((nodesOf root).filter (fun u => ¬ s.npred u = -2)).length := by
          refine Graphlib.length_filter_mono _ _ _ ?_
          intro x _ hx
          simp only [decide_eq_true_eq] at hx ⊢
          intro hc
          exact hx (hbmono x hc)
        rw [startLoop_step, if_pos hcond]
        by_cases hp2 : (startBatch (s.getReady).1 (s.getReady).2 pending).2
            = []
        · rw [dif_pos hp2]
          have hpnil : pending = [] := by
            by_contra hne
            obtain ⟨a, as, hpe⟩ := List.exists_cons_of_ne_nil hne
            have hx := startBatch_pending_mono (s.getReady).1 (s.getReady).2
              pending a (by rw [hpe]; exact List.mem_cons_self _ _)
            rw [hp2] at hx
            exact absurd hx (List.not_mem_nil a)
          have hsr : s.ready ≠ [] := by
            intro hnil
            rw [Graphlib.TS.isActive, hpnil, hnil] at hcond
            rw [hpnil] at hI3
            simp at hcond
            simp at hI3
            omega
          obtain ⟨r0, rrest, hr0⟩ := List.exists_cons_of_ne_nil hsr
          have hr0m : r0 ∈ s.ready := by
            rw [hr0]
            exact List.mem_cons_self _ _
          have hr0f := hI10 r0 hr0m
          have hr0done :
              (startBatch (s.getReady).1 (s.getReady).2 pending).1.npred r0
                = -2 := by
            obtain ⟨g1, g2, g3, g4, g5, g6, g7, g8, g9, g10, g11, g12, g13⟩ :=
              hsim2
            have hrc : r0 ∈ constructed ++ (s.getReady).1 :=
              List.mem_append.mpr (Or.inr hr0m)
            rcases (g12 r0).mp hrc with ⟨hrn, hc⟩
            rcases hc with h | h
            · have hmem := (g6 r0 hrn).mp h
              rw [hp2] at hmem
              exact absurd hmem (List.not_mem_nil r0)
            · exact h
          have hstrict : ((nodesOf root).filter (fun u =>
              ¬ (startBatch (s.getReady).1 (s.getReady).2 pending).1.npred u
                = -2)).length <
              ((nodesOf root).filter (fun u => ¬ s.npred u = -2)).length := by
            refine Graphlib.length_filter_lt _ _ _ ?_ ⟨r0, hr0f.1, ?_, ?_⟩
            · intro x _ hx
              simp only [decide_eq_true_eq] at hx ⊢
              intro hc
              exact hx (hbmono x hc)
            · simp only [decide_eq_false_iff_not, not_not]
              exact hr0done
            · simp only [decide_eq_true_eq]
              have h0 := hr0f.2
              omega
          exact ih (i + 1) (startBatch (s.getReady).1 (s.getReady).2 pending).1
            (startBatch (s.getReady).1 (s.getReady).2 pending).2
            (constructed ++ (s.getReady).1) started hsim2 (by omega)
        · rw [dif_neg hp2]
          have hsim2c := hsim2
          obtain ⟨g1, g2, g3, g4, g5, g6, g7, g8, g9, g10, g11, g12, g13⟩ :=
            hsim2c
          have hjlt : pick i %
              (startBatch (s.getReady).1 (s.getReady).2 pending).2.length <
              (startBatch (s.getReady).1 (s.getReady).2 pending).2.length :=
            Nat.mod_lt _ (List.length_pos.mpr hp2)
          have hsim3 := simInv_complete root
            (startBatch (s.getReady).1 (s.getReady).2 pending).1
            (startBatch (s.getReady).1 (s.getReady).2 pending).2
            (constructed ++ (s.getReady).1) started
            (pick i % (startBatch (s.getReady).1 (s.getReady).2
              pending).2.length) hjlt hsim2
          have ht2mem :
              (startBatch (s.getReady).1 (s.getReady).2 pending).2.get
                ⟨pick i % (startBatch (s.getReady).1 (s.getReady).2
                  pending).2.length, hjlt⟩ ∈
              (startBatch (s.getReady).1 (s.getReady).2 pending).2 :=
            List.get_mem _ _ _
          have ht2p : (startBatch (s.getReady).1 (s.getReady).2
              pending).1.npred
              ((startBatch (s.getReady).1 (s.getReady).2 pending).2.get
                ⟨pick i % (startBatch (s.getReady).1 (s.getReady).2
                  pending).2.length, hjlt⟩) = -1 :=
            (g6 _ (g8 _ ht2mem).1).mpr ht2mem
          obtain ⟨hdone2, hs1x, hs2x, _⟩ :=
            doneOne_core root
              (startBatch (s.getReady).1 (s.getReady).2 pending).1
              ((startBatch (s.getReady).1 (s.getReady).2 pending).2.get
                ⟨pick i % (startBatch (s.getReady).1 (s.getReady).2
                  pending).2.length, hjlt⟩)
              g1 g4 g5 g9 g10 g11 (g8 _ ht2mem).1 ht2p
          have hstrict : ((nodesOf root).filter (fun u =>
              ¬ ((startBatch (s.getReady).1 (s.getReady).2 pending).1.doneOne
                ((startBatch (s.getReady).1 (s.getReady).2 pending).2.get
                  ⟨pick i % (startBatch (s.getReady).1 (s.getReady).2
                    pending).2.length, hjlt⟩)).npred u = -2)).length <
              ((nodesOf root).filter (fun u =>
              ¬ (startBatch (s.getReady).1 (s.getReady).2 pending).1.npred u
                = -2)).length := by
            refine Graphlib.length_filter_lt _ _ _ ?_
              ⟨_, (g8 _ ht2mem).1, ?_, ?_⟩
            · intro x _ hx
              simp only [decide_eq_true_eq] at hx ⊢
              intro hc
              refine hx ?_
              by_cases hne : x =
                  (startBatch (s.getReady).1 (s.getReady).2 pending).2.get
                    ⟨pick i % (startBatch (s.getReady).1 (s.getReady).2
                      pending).2.length, hjlt⟩
              · subst hne
                exact hdone2
              · exact (hs2x x hne).mpr hc
            · simp only [decide_eq_false_iff_not, not_not]
              exact hdone2
            · simp only [decide_eq_true_eq]
              omega
          exact ih (i + 1) _ _ (constructed ++ (s.getReady).1) _ hsim3
            (by omega)
      · rw [startLoop_step, if_neg hcond]
        have hpnil : pending = [] := by
          rcases pending with _ | ⟨a, as⟩
          · rfl
          · simp at hcond
        have hrnil : s.ready = [] := by
          have ha : s.isActive = false := by
            cases hb : s.isActive
            · rfl
            · exfalso
              apply hcond
              rw [hb]
              rfl
          rw [Graphlib.TS.isActive] at ha
          have h2 : (!s.ready.isEmpty) = false := by
            cases hb : (!s.ready.isEmpty)
            · rfl
            · rw [hb] at ha
              simp at ha
          cases hr : s.ready with
          | nil => rfl
          | cons a as =>
              rw [hr] at h2
              simp at h2
        exact ⟨⟨s, pending, constructed, started, true⟩, rfl, rfl, hI, hpnil,
          hrnil⟩

theorem simInv_final_all_done (root : TargetDef) (s : TS TargetDef)
    (constructed started : List TargetDef)
    (hI : SimInv root s [] constructed started)
    (hr : s.ready = []) :
    ∀ u ∈ nodesOf root, s.npred u = -2 := by
  obtain ⟨h1, h2, h3, h4, h5, h6, h7, h8, h9, h10, h11, h12, h13⟩ := hI
  have main : ∀ (n : Nat) (u : TargetDef), sizeOf u ≤ n → u ∈ nodesOf root →
      s.npred u = -2 := by
    intro n
    induction n with
    | zero =>
        intro u hsz
        cases u with
        | mk a b c d =>
            simp only [TargetDef.mk.sizeOf_spec] at hsz
            omega
    | succ n ihn =>
        intro u hsz hu
        by_contra hne
        rcases h4 u hu with h | h | h
        · exact absurd ((h6 u hu).mp h) (List.not_mem_nil u)
        · exact hne h
        · by_cases h0 : unfinishedCount s u = 0
          · have hz : s.npred u = 0 := by omega
            have hmem := h11 u hu hz
            rw [hr] at hmem
            exact absurd hmem (List.not_mem_nil u)
          · have hpos : 0 < (u.dependencies.filter
                (fun d => ¬ s.npred d = -2)).length := by
              rw [unfinishedCount] at h0
              omega
            obtain ⟨d, hd⟩ := List.exists_mem_of_ne_nil _
              (List.length_pos.mp hpos)
            have hdd := List.mem_of_mem_filter hd
            have hdnd := List.of_mem_filter hd
            simp only [decide_eq_true_eq] at hdnd
            have hdn : d ∈ nodesOf root := nodesOf_dep_closed root u d hu hdd
            have hlt := dep_sizeOf_lt u d hdd
            exact hdnd (ihn d (by omega) hdn)
  intro u hu
  exact main (sizeOf u) u le_rfl hu

theorem nodesOf_length_le_order (root : TargetDef) :
    (nodesOf root).length ≤ (baseGraph root).order.length := by
  have hsub : nodesOf root ⊆ (baseGraph root).order := by
    intro x hx
    exact (baseGraph_order_mem root x).mpr hx
  exact ((nodesOf_nodup root).subperm hsub).length_le

theorem lifecycleStart_spec (root : TargetDef) (pick : Nat → Nat) :
    ∃ r, lifecycleStart pick (depedencyGraphSpec root) = r ∧
      r.finishedNormally = true ∧
      (∀ u, u ∈ r.constructed ↔ u ∈ closureList root) ∧
      (∀ u, u ∈ r.startedOrder ↔
        (u ∈ closureList root ∧ tdStartable u = true)) := by
  have hfuel : ((nodesOf root).filter
      (fun u => ¬ (depedencyGraphSpec root).npred u = -2)).length <
      2 * (depedencyGraphSpec root).order.length + 1 := by
    have hle : ((nodesOf root).filter
        (fun u => ¬ (depedencyGraphSpec root).npred u = -2)).length ≤
        (nodesOf root).length :=
      List.length_filter_le _ _
    have h2 := nodesOf_length_le_order root
    have h3 : (depedencyGraphSpec root).order = (baseGraph root).order := by
      rw [depedencyGraphSpec]
      exact (Graphlib.prepareReady_parts _).2.2.1
    rw [h3]
    omega
  obtain ⟨r, heq, hfin, hsim, hp, hready⟩ :=
    startLoop_drain root pick
      (2 * (depedencyGraphSpec root).order.length + 1)
      0 (depedencyGraphSpec root) [] [] [] (simInv_init root) hfuel
  rw [hp] at hsim
  have halldone := simInv_final_all_done root r.graph r.constructed
    r.startedOrder hsim hready
  obtain ⟨h1, h2, h3, h4, h5, h6, h7, h8, h9, h10, h11, h12, h13⟩ := hsim
  refine ⟨r, ?_, hfin, ?_, ?_⟩
  · rw [lifecycleStart]
    exact heq
  · intro u
    constructor
    · intro h
      exact (nodesOf_mem root u).mp ((h12 u).mp h).1
    · intro h
      have hun := (nodesOf_mem root u).mpr h
      exact (h12 u).mpr ⟨hun, Or.inr (halldone u hun)⟩
  · intro u
    constructor
    · intro h
      rcases (h13 u).mp h with ⟨hun, _, hst⟩
      exact ⟨(nodesOf_mem root u).mp hun, hst⟩
    · rintro ⟨h, hst⟩
      have hun := (nodesOf_mem root u).mpr h
      exact (h13 u).mpr ⟨hun, halldone u hun, hst⟩

/-- C3 (amended): for every root and every resolution of the
FIRST_COMPLETED start races, _lifecycle_start drains the dependency
graph: the set of constructed targets (targets whose lifecycle is
driven) is exactly the transitive dependency closure of the root
including the root itself.  But _lifecycle_run dispatches run only for
the targets recorded during the start phase, which are the started
ones: a target receives target.run iff it is in the closure AND
startable AND runable.  Run-capable targets without a start capability
are constructed yet never dispatched, contradicting the claim's
"every target in that set that has a run capability". -/
theorem c3_closure_driven_run_requires_start (root : TargetDef)
    (pick : Nat → Nat) :
    (lifecycleStart pick (depedencyGraphSpec root)).finishedNormally
      = true ∧
    (∀ u, u ∈ (lifecycleStart pick (depedencyGraphSpec root)).constructed ↔
      u ∈ closureList root) ∧
    (∀ u, u ∈ runDispatch
        (lifecycleStart pick (depedencyGraphSpec root)).startedOrder ↔
      (u ∈ closureList root ∧ tdStartable u = true ∧
        tdRunable u = true)) := by
  obtain ⟨r, heq, hfin, hcon, hstart⟩ := lifecycleStart_spec root pick
  rw [heq]
  refine ⟨hfin, hcon, ?_⟩
  intro u
  rw [runDispatch, List.mem_filter]
  constructor
  · rintro ⟨h1, h2⟩
    rcases (hstart u).mp h1 with ⟨hc, hs⟩
    exact ⟨hc, hs, h2⟩
  · rintro ⟨hc, hs, hr⟩
    exact ⟨(hstart u).mpr ⟨hc, hs⟩, hr⟩

/-- C3 counterexample: a run-capable target with no start capability
(leaf, component class runner with run but not start), depended on by
a startable root (top).  leaf is in the closure and is constructed —
its lifecycle is driven — and it is run-capable, yet for every race
resolution the run phase never dispatches leaf.run, because
_lifecycle_run iterates self._targets, which records only targets
whose start was awaited. -/
theorem c3_counterexample :
    (TargetDef.mk "leaf" "pl" []
        [⟨"runner", ⟨"runner", false, true, false, false⟩, []⟩]) ∈
      closureList (TargetDef.mk "top" "pt"
        [TargetDef.mk "leaf" "pl" []
          [⟨"runner", ⟨"runner", false, true, false, false⟩, []⟩]]
        [⟨"exec", ⟨"exec", true, true, true, false⟩, []⟩]) ∧
    tdRunable (TargetDef.mk "leaf" "pl" []
      [⟨"runner", ⟨"runner", false, true, false, false⟩, []⟩]) = true ∧
    tdStartable (TargetDef.mk "leaf" "pl" []
      [⟨"runner", ⟨"runner", false, true, false, false⟩, []⟩]) = false ∧
    ∀ pick : Nat → Nat,
      (TargetDef.mk "leaf" "pl" []
          [⟨"runner", ⟨"runner", false, true, false, false⟩, []⟩]) ∈
        (lifecycleStart pick (depedencyGraphSpec (TargetDef.mk "top" "pt"
          [TargetDef.mk "leaf" "pl" []
            [⟨"runner", ⟨"runner", false, true, false, false⟩, []⟩]]
          [⟨"exec", ⟨"exec", true, true, true, false⟩, []⟩]))).constructed ∧
      (TargetDef.mk "leaf" "pl" []
          [⟨"runner", ⟨"runner", false, true, false, false⟩, []⟩]) ∉
        runDispatch (lifecycleStart pick (depedencyGraphSpec
          (TargetDef.mk "top" "pt"
            [TargetDef.mk "leaf" "pl" []
              [⟨"runner", ⟨"runner", false, true, false, false⟩, []⟩]]
            [⟨"exec", ⟨"exec", true, true, true, false⟩, []⟩]))).startedOrder
      := by
  have hleafmem : (TargetDef.mk "leaf" "pl" []
      [⟨"runner", ⟨"runner", false, true, false, false⟩, []⟩]) ∈
      closureList (TargetDef.mk "top" "pt"
        [TargetDef.mk "leaf" "pl" []
          [⟨"runner", ⟨"runner", false, true, false, false⟩, []⟩]]
        [⟨"exec", ⟨"exec", true, true, true, false⟩, []⟩]) := by
    refine (closureList_mem_iff _ _).mpr (Or.inr ?_)
    refine ⟨TargetDef.mk "leaf" "pl"
      [] [⟨"runner", ⟨"runner", false, true, false, false⟩, []⟩], ?_, ?_⟩
    · simp only [TargetDef.dependencies]
      exact List.mem_cons_self _ _
    · exact closureList_self _
  refine ⟨hleafmem, rfl, rfl, ?_⟩
  intro pick
  obtain ⟨r, heq, hfin, hcon, hstart⟩ := lifecycleStart_spec
    (TargetDef.mk "top" "pt"
      [TargetDef.mk "leaf" "pl" []
        [⟨"runner", ⟨"runner", false, true, false, false⟩, []⟩]]
      [⟨"exec", ⟨"exec", true, true, true, false⟩, []⟩]) pick
  rw [heq]
  constructor
  · exact (hcon _).mpr hleafmem
  · intro hmem
    have h1 := List.mem_of_mem_filter hmem
    have h2 := ((hstart _).mp h1).2
    exact absurd h2 (by decide)
